import Mathlib

/-!
# DomFactory: a shallow embedding of `DomFactory.cpp`

The development follows `src/src/DomFactory.cpp` and `src/src/DomFactory.h`.

* `QString` is a list of characters, `QByteArray` a list of byte values.
* The Qt collaborators that the repository only uses (the stream tokenizer
  `QXmlStreamReader`, the bounded cache `QCache`, the document parser behind
  `QDomDocument::setContent`) are either modelled from the specification or
  taken as parameters (`lex`, `setContent`).
* `Builder::find` is translated statement by statement: `scanStep` is the body
  of the `while` loop, `scanLoop` the loop, `Builder.find` the whole method.
-/

namespace DomFactory

/-! ## Strings and constants -/

abbrev QString := List Char

abbrev QByteArray := List Nat

/-- Default entry bound of a Builder's offset cache (`cDefaultBuilderCacheSize`). -/
def cDefaultBuilderCacheSize : Nat := 50

/-- Default cost bound of a domain's document cache (`cDefaultFactoryCacheSize`). -/
def cDefaultFactoryCacheSize : Nat := 5000

def cStartElementNotFound : QString :=
  "DomFactory::Builder: start element not found".toList

def cEndElementNotFound : QString :=
  "DomFactory::Builder: end element not found".toList

def cNoDomain : QString :=
  "DomFactory::Factory: no such domain ".toList

/-- Range of the C++ type `uint` (32 bits). -/
def uintRange : Nat := 4294967296

/-- The function `CleanPath`: remove one leading `/` if there is one, then one
trailing `/` if there is one. -/
def CleanPath (aPath : QString) : QString :=
  let p1 := if aPath.head? = some '/' then aPath.drop 1 else aPath
  if p1.getLast? = some '/' then p1.dropLast else p1

/-- The call `QString::split(sep)` with the default `KeepEmptyParts`: the result
always has at least one part. -/
def split (sep : Char) : QString → List QString
  | [] => [[]]
  | c :: cs =>
    if c = sep then [] :: split sep cs
    else
      match split sep cs with
      | [] => [[c]]
      | w :: ws => (c :: w) :: ws

/-- The call `QString::lastIndexOf(ch)`: index of the last occurrence, `-1` when
there is none. -/
def lastIndexOf (ch : Char) (s : QString) : Int :=
  match s.reverse.indexOf? ch with
  | none => -1
  | some k => (s.length : Int) - 1 - (k : Int)

/-- The call `QString::right(n)`: the last `n` characters (the whole string when
`n` is at least the size, nothing when `n` is not positive). -/
def right (s : QString) (n : Int) : QString :=
  s.drop (s.length - n.toNat)

/-- The text `QString("[%1]").arg(aLeafTagIndex)`. -/
def tagIndexText (aLeafTagIndex : Nat) : QString :=
  '[' :: (Nat.toDigits 10 aLeafTagIndex ++ [']'])

/-! ## The tokenizer (`QXmlStreamReader`) -/

/-- The token kinds `Builder::find` distinguishes; every other kind of
`QXmlStreamReader::TokenType` is `Other`. -/
inductive TokenType where
  | StartElement
  | EndElement
  | Other
  deriving DecidableEq, Repr

/-- Modelled from the spec: one event of the tokenizer collaborator
(`QXmlStreamReader`, not part of the repository), with what the reader reports
right after delivering it: `name()`, `characterOffset()` and `device()->pos()`. -/
structure Token where
  type : TokenType
  name : QString
  characterOffset : Int
  pos : Int
  deriving DecidableEq, Repr

/-- Modelled from the spec: the state of the tokenizer collaborator, a pull-style
event sequence with an "at end" predicate. `pending` holds the events not yet
delivered (`atEnd()` is `pending = []`); `reads` counts the `readNext()` calls
made so far. -/
structure QXmlStreamReader where
  pending : List Token
  reads : Nat
  deriving DecidableEq, Repr

/-! ## The bounded cache (`QCache`) -/

/-- One entry of a `QCache`: key, stored object and its cost. -/
structure CacheNode (V : Type) where
  key : QString
  object : V
  cost : Int
  deriving DecidableEq, Repr

/-- Modelled from the spec: the bounded lookup cache (`QCache`, not part of the
repository): entries in recency order, most recently used first, bounded by the
total cost `mx`; least recently used entries are evicted first. -/
structure QCache (V : Type) where
  mx : Int
  nodes : List (CacheNode V)
  deriving DecidableEq, Repr

namespace QCache

variable {V : Type}

/-- Sum of the costs of a list of entries. -/
def costOf : List (CacheNode V) → Int
  | [] => 0
  | n :: ns => n.cost + costOf ns

/-- Total cost held by the cache (`totalCost()`). -/
def totalCost (c : QCache V) : Int := costOf c.nodes

/-- Eviction on the reversed entry list (least recently used first): drop
entries while the total exceeds `m`. -/
def trimRev (m : Int) : List (CacheNode V) → List (CacheNode V)
  | [] => []
  | n :: ns => if costOf (n :: ns) > m then trimRev m ns else n :: ns

/-- The private `trim(m)`: evict from the least recently used end while the total
cost exceeds `m`. -/
def trim (c : QCache V) (m : Int) : QCache V :=
  { c with nodes := (trimRev m c.nodes.reverse).reverse }

/-- A default-constructed cache: `QCache(int maxCost = 100)`. -/
def empty (maxCost : Int) : QCache V := { mx := maxCost, nodes := [] }

/-- The call `setMaxCost(m)`. -/
def setMaxCost (c : QCache V) (m : Int) : QCache V :=
  ({ c with mx := m }).trim m

/-- The call `clear()`. -/
def clear (c : QCache V) : QCache V := { c with nodes := [] }

/-- The call `remove(key)`. -/
def remove (c : QCache V) (k : QString) : QCache V :=
  { c with nodes := c.nodes.filter (fun n => n.key != k) }

/-- The call `contains(key)`. -/
def contains (c : QCache V) (k : QString) : Bool :=
  c.nodes.any (fun n => n.key == k)

/-- The call `insert(key, object, cost)`: the old entry of the key is removed; an
object dearer than the bound is dropped; else room is made and the entry becomes
the most recently used one. -/
def insert (c : QCache V) (k : QString) (v : V) (cost : Int) : QCache V :=
  let c1 := c.remove k
  if cost > c1.mx then c1
  else
    let c2 := c1.trim (c1.mx - cost)
    { c2 with nodes := { key := k, object := v, cost := cost } :: c2.nodes }

/-- The call `object(key)` (also `operator[]`): the stored object, if any; a hit
makes the entry the most recently used one, a miss changes nothing. -/
def object (c : QCache V) (k : QString) : Option V × QCache V :=
  match c.nodes.find? (fun n => n.key == k) with
  | none => (none, c)
  | some n => (some n.object, { c with nodes := n :: c.nodes.filter (fun x => x.key != k) })

end QCache

/-! ## Builder -/

/-- Offsets stored in the offset cache (`TCacheItem`). -/
abbrev TCacheItem := Int × Int

/-- The data members of `Builder`. `mData` is the buffer, `mReader` the tokenizer
session, `mLastLeafTagIndex` a `uint`. -/
structure Builder where
  mData : QByteArray
  mReader : QXmlStreamReader
  mCache : QCache TCacheItem
  mLastErrorMessage : QString
  mLastPath : QString
  mLastLeafTagIndex : Nat
  deriving DecidableEq, Repr

/-- The conversion of the `uint` argument of `setCacheSize` to the `int`
parameter of `QCache::setMaxCost`. -/
def uintToInt (n : Nat) : Int :=
  if n % uintRange < 2147483648 then ((n % uintRange : Nat) : Int)
  else ((n % uintRange : Nat) : Int) - (uintRange : Int)

namespace Builder

/-- The method `Builder::setData`. -/
def setData (b : Builder) (aData : QByteArray) : Builder :=
  { b with mData := aData, mLastLeafTagIndex := 0, mLastPath := [] }

/-- The method `Builder::setCacheSize`. -/
def setCacheSize (b : Builder) (aSize : Nat) : Builder :=
  { b with mCache := b.mCache.setMaxCost (uintToInt aSize) }

/-- The method `Builder::clearCache`. -/
def clearCache (b : Builder) : Builder :=
  { b with mCache := b.mCache.clear }

/-- The members as the default constructors of their types leave them, with
`mLastLeafTagIndex(0)`. -/
def blank : Builder :=
  { mData := [], mReader := { pending := [], reads := 0 }, mCache := QCache.empty 100,
    mLastErrorMessage := [], mLastPath := [], mLastLeafTagIndex := 0 }

/-- The constructor `Builder::Builder(QByteArray aData)`. -/
def new (aData : QByteArray) : Builder :=
  (blank.setData aData).setCacheSize cDefaultBuilderCacheSize

/-- The method `Builder::checkCache`: the cached offsets, if any, and the cache
after the lookup. -/
def checkCache (b : Builder) (aPath : QString) : Option TCacheItem × QCache TCacheItem :=
  b.mCache.object aPath

/-- The method `Builder::updateCache`. -/
def updateCache (c : QCache TCacheItem) (aPath : QString) (aStartOffset aEndOffset : Int) :
    QCache TCacheItem :=
  c.insert aPath (aStartOffset, aEndOffset) 1

end Builder

/-- The local variables of `Builder::find`. -/
structure ScanState where
  level : Int
  globalLevel : Int
  currentLeafTagIndex : Nat
  tags : List QString
  startFound : Bool
  endFound : Bool
  startOffset : Int
  endOffset : Int
  lastOffset : Int
  deriving DecidableEq, Repr

/-- The locals at loop entry: `level = globalLevel = 0`, nothing found, all
offsets `0`. -/
def scanInit (tags : List QString) (currentLeafTagIndex : Nat) : ScanState :=
  { level := 0, globalLevel := 0, currentLeafTagIndex := currentLeafTagIndex, tags := tags,
    startFound := false, endFound := false, startOffset := 0, endOffset := 0, lastOffset := 0 }

/-- The part of the loop body run for a `StartElement` token
(`DomFactory.cpp`, lines 155-183). `tags.first()` is `tags.head?`. -/
def onStartElement (s : ScanState) (t : Token) : ScanState :=
  let s1 :=
    if !s.startFound && s.tags.head? == some t.name && s.level == s.globalLevel then
      let s2 :=
        if s.tags.length == 1 then
          if s.currentLeafTagIndex != 0 then
            { s with currentLeafTagIndex := s.currentLeafTagIndex - 1, level := s.level - 1 }
          else
            { s with startOffset := s.lastOffset, startFound := true }
        else
          { s with tags := s.tags.tail }
      { s2 with level := s2.level + 1 }
    else s
  { s1 with globalLevel := s1.globalLevel + 1 }

/-- The part of the loop body run for an `EndElement` token
(`DomFactory.cpp`, lines 185-195). -/
def onEndElement (s : ScanState) (t : Token) : ScanState :=
  let s1 :=
    if s.startFound && s.tags.head? == some t.name && s.level == s.globalLevel then
      { s with endOffset := t.pos, endFound := true }
    else s
  { s1 with globalLevel := s1.globalLevel - 1 }

/-- One iteration of the `while` loop of `Builder::find` on the token `t` that
`readNext()` delivered. -/
def scanStep (s : ScanState) (t : Token) : ScanState :=
  let s1 :=
    match t.type with
    | TokenType.StartElement => onStartElement s t
    | TokenType.EndElement => onEndElement s t
    | TokenType.Other => s
  { s1 with lastOffset := t.characterOffset - 1 }

/-- The loop `while (!mReader.atEnd() && !endFound)`: the final locals and the
events left in the reader. -/
def scanLoop : ScanState → List Token → ScanState × List Token
  | s, [] => (s, [])
  | s, t :: ts => if s.endFound then (s, t :: ts) else scanLoop (scanStep s t) ts

/-- What `Builder::find` hands back: the return value, the offsets of the view
stored in `aData` (`none`: `aData` is left as it was), and the Builder after the
call. -/
structure FindResult where
  ok : Bool
  range : Option (Int × Int)
  builder : Builder
  deriving DecidableEq, Repr

namespace Builder

/-- The sequential-read test `aPath == mLastPath && aLeafTagIndex-1 == mLastLeafTagIndex`
in `uint` arithmetic. -/
def isSequential (b : Builder) (aPath : QString) (aLeafTagIndex : Nat) : Bool :=
  aPath == b.mLastPath && (aLeafTagIndex + (uintRange - 1)) % uintRange == b.mLastLeafTagIndex

/-- The `else` branch of the cache test in `Builder::find` (lines 132-198): choose
the scan mode, run the loop, return the locals and the reader. -/
def scan (lex : QByteArray → List Token) (b : Builder) (aPath : QString) (aLeafTagIndex : Nat) :
    ScanState × QXmlStreamReader :=
  let start : ScanState × List Token :=
    if b.isSequential aPath aLeafTagIndex then
      (scanInit [right aPath ((aPath.length : Int) - lastIndexOf '/' aPath - 1)] 0,
        b.mReader.pending)
    else
      (scanInit (split '/' aPath) aLeafTagIndex, lex b.mData)
  let r := scanLoop start.1 start.2
  (r.1, { pending := r.2, reads := b.mReader.reads + (start.2.length - r.2.length) })

/-- The method `Builder::find`. -/
def find (lex : QByteArray → List Token) (b : Builder) (aPath0 : QString) (aLeafTagIndex : Nat) :
    FindResult :=
  let aPath := CleanPath aPath0
  if aPath.isEmpty then { ok := false, range := none, builder := b }
  else
    let key := aPath ++ tagIndexText aLeafTagIndex
    let hit := b.checkCache key
    let inCache := hit.1.isSome
    let r : ScanState × QXmlStreamReader :=
      match hit.1 with
      | some item =>
        ({ scanInit [] aLeafTagIndex with
            startOffset := item.1, endOffset := item.2, startFound := true, endFound := true },
          b.mReader)
      | none => scan lex b aPath aLeafTagIndex
    let s := r.1
    let b1 : Builder := { b with mReader := r.2, mCache := hit.2 }
    let b2 : Builder :=
      if !s.startFound then { b1 with mLastErrorMessage := cStartElementNotFound }
      else if !s.endFound then { b1 with mLastErrorMessage := cEndElementNotFound }
      else
        { b1 with
          mLastErrorMessage := [],
          mCache := if !inCache then updateCache b1.mCache key s.startOffset s.endOffset
                    else b1.mCache }
    { ok := s.startFound && s.endFound,
      range := if s.startFound && s.endFound then some (s.startOffset, s.endOffset) else none,
      builder := { b2 with mLastPath := aPath, mLastLeafTagIndex := aLeafTagIndex } }

/-- The view `QByteArray::fromRawData(mData.data().data()+startOffset,
endOffset-startOffset)` on the buffer. -/
def view (d : QByteArray) (startOffset endOffset : Int) : QByteArray :=
  (d.drop startOffset.toNat).take (endOffset - startOffset).toNat

/-- What `Builder::build` hands back: the returned cost (`-1` on any error), the
document a successful parse stored in `aDocument`, and the Builder after the
call. -/
structure BuildResult (Doc : Type) where
  cost : Int
  document : Option Doc
  builder : Builder

/-- The method `Builder::build`. The parser behind `QDomDocument::setContent` is
the parameter `setContent`: the parsed document, or the error text it stores
in `mLastErrorMessage`. The returned cost is `data.size()`, the size
`endOffset - startOffset` given to the view (offsets into a `QByteArray` fit its
`int` size, so no narrowing is modelled). -/
def build {Doc : Type} (lex : QByteArray → List Token) (setContent : QByteArray → Except QString Doc)
    (b : Builder) (aPath : QString) (aLeafTagIndex : Nat) : BuildResult Doc :=
  let r := b.find lex aPath aLeafTagIndex
  match r.ok, r.range with
  | true, some (s, e) =>
    match setContent (view r.builder.mData s e) with
    | Except.ok doc => { cost := e - s, document := some doc, builder := r.builder }
    | Except.error msg =>
      { cost := -1, document := none, builder := { r.builder with mLastErrorMessage := msg } }
  | _, _ => { cost := -1, document := none, builder := r.builder }

end Builder

/-! ## Factory -/

/-- The document cache of one domain (`TDomDocumentCache`). -/
abbrev TDomDocumentCache (Doc : Type) := QCache Doc

/-- The data members of `Factory`: the map `mBuilders` from a domain name to its
Builder and document cache (a `QMap`, here an association list with one pair
per name), and the registry-level error text. -/
structure Factory (Doc : Type) where
  mBuilders : List (QString × (Builder × TDomDocumentCache Doc))
  mLastErrorMessage : QString

namespace Factory

variable {Doc : Type}

/-- The read access `mBuilders[aDomain]` for a name the map contains (`value`). -/
def lookup (f : Factory Doc) (aDomain : QString) : Option (Builder × TDomDocumentCache Doc) :=
  (f.mBuilders.find? (fun p => p.1 == aDomain)).map (fun p => p.2)

/-- The write access `mBuilders[aDomain] = pair`: the pair of the name is replaced
or added. -/
def store (f : Factory Doc) (aDomain : QString) (pair : Builder × TDomDocumentCache Doc) :
    Factory Doc :=
  { f with mBuilders := (aDomain, pair) :: f.mBuilders.filter (fun p => p.1 != aDomain) }

/-- The method `Factory::hasDomain`. -/
def hasDomain (f : Factory Doc) (aDomain : QString) : Bool :=
  f.mBuilders.any (fun p => p.1 == aDomain)

/-- The method `Factory::addData`. -/
def addData (f : Factory Doc) (aDomain : QString) (aData : QByteArray) : Factory Doc :=
  f.store aDomain (Builder.new aData, QCache.empty (cDefaultFactoryCacheSize : Int))

/-- The method `Factory::deleteData`: the return value and the registry after the
call. -/
def deleteData (f : Factory Doc) (aDomain : QString) : Bool × Factory Doc :=
  if f.hasDomain aDomain then
    (true, { f with mBuilders := f.mBuilders.filter (fun p => p.1 != aDomain) })
  else
    (false, { f with mLastErrorMessage := cNoDomain ++ aDomain })

/-- The method `Factory::setCacheSize`; the `size_t` argument is converted to the
`int` parameter of `setMaxCost`. -/
def setCacheSize (f : Factory Doc) (aDomain : QString) (aSize : Nat) : Factory Doc :=
  match f.lookup aDomain with
  | some pair => f.store aDomain (pair.1, pair.2.setMaxCost (uintToInt aSize))
  | none => { f with mLastErrorMessage := cNoDomain ++ aDomain }

/-- The method `Factory::clearCache()`. -/
def clearCacheAll (f : Factory Doc) : Factory Doc :=
  { f with mBuilders := f.mBuilders.map (fun p => (p.1, (p.2.1, p.2.2.clear))) }

/-- The method `Factory::clearCache(QString aDomain)`. -/
def clearCache (f : Factory Doc) (aDomain : QString) : Factory Doc :=
  match f.lookup aDomain with
  | some pair => f.store aDomain (pair.1, pair.2.clear)
  | none => { f with mLastErrorMessage := cNoDomain ++ aDomain }

/-- What `Factory::build` hands back: the return value, the document stored in
`aDocument` (if any) and the registry after the call. -/
structure BuildOutcome (Doc : Type) where
  ok : Bool
  document : Option Doc
  factory : Factory Doc

/-- The method `Factory::build`, with `Factory::checkCache` as the lookup
`object(key)` in the document cache of the domain. -/
def build (lex : QByteArray → List Token) (setContent : QByteArray → Except QString Doc)
    (f : Factory Doc) (aDomain aPath0 : QString) (aLeafTagIndex : Nat) : BuildOutcome Doc :=
  match f.lookup aDomain with
  | some pair =>
    let aPath := CleanPath aPath0
    let key := aPath ++ tagIndexText aLeafTagIndex
    let hit := pair.2.object key
    match hit.1 with
    | some doc => { ok := true, document := some doc, factory := f.store aDomain (pair.1, hit.2) }
    | none =>
      let r := pair.1.build lex setContent aPath aLeafTagIndex
      match r.document with
      | some doc =>
        if r.cost ≥ 0 then
          { ok := true, document := some doc,
            factory := f.store aDomain (r.builder, hit.2.insert key doc r.cost) }
        else
          { ok := false, document := some doc, factory := f.store aDomain (r.builder, hit.2) }
      | none => { ok := false, document := none, factory := f.store aDomain (r.builder, hit.2) }
  | none =>
    { ok := false, document := none,
      factory := { f with mLastErrorMessage := cNoDomain ++ aDomain } }

/-- What `Factory::find` hands back: the return value, the offsets of the view
stored in `aData` (if any) and the registry after the call. -/
structure FindOutcome (Doc : Type) where
  ok : Bool
  range : Option (Int × Int)
  factory : Factory Doc

/-- The method `Factory::find`. -/
def find (lex : QByteArray → List Token) (f : Factory Doc) (aDomain aPath : QString)
    (aLeafTagIndex : Nat) : FindOutcome Doc :=
  match f.lookup aDomain with
  | some pair =>
    let r := pair.1.find lex aPath aLeafTagIndex
    { ok := r.ok, range := r.range, factory := f.store aDomain (r.builder, pair.2) }
  | none =>
    { ok := false, range := none,
      factory := { f with mLastErrorMessage := cNoDomain ++ aDomain } }

/-- The method `Factory::lastErrorMessage(QString aDomain)`: the text and the
registry after the call. -/
def lastErrorMessageOf (f : Factory Doc) (aDomain : QString) : QString × Factory Doc :=
  match f.lookup aDomain with
  | some pair => (pair.1.mLastErrorMessage, f)
  | none =>
    (cNoDomain ++ aDomain, { f with mLastErrorMessage := cNoDomain ++ aDomain })

/-- The method `Factory::lastErrorMessage()`. -/
def lastErrorMessage (f : Factory Doc) : QString := f.mLastErrorMessage

end Factory

/-! ## Well-formed documents -/

/-- A node of a document tree together with what the tokenizer reports for its
tokens: an element yields a `StartElement` token, the tokens of its children and
an `EndElement` token of the same name; anything else (text, comment,
processing instruction, document start and end) yields one `Other` token. -/
inductive Node where
  | element (name : QString) (openOffset openPos : Int) (children : List Node)
      (closeOffset closePos : Int) : Node
  | other (offset pos : Int) : Node

mutual
/-- The token sequence of a node. -/
def Node.tokens : Node → List Token
  | Node.element name oo op children co cp =>
    { type := TokenType.StartElement, name := name, characterOffset := oo, pos := op } ::
      (Node.tokensOfList children ++
        [{ type := TokenType.EndElement, name := name, characterOffset := co, pos := cp }])
  | Node.other o p => [{ type := TokenType.Other, name := [], characterOffset := o, pos := p }]
/-- The token sequence of a list of sibling nodes. -/
def Node.tokensOfList : List Node → List Token
  | [] => []
  | n :: ns => Node.tokens n ++ Node.tokensOfList ns
end

/-- Whether a node is an element named `t`. -/
def Node.isNamed (t : QString) : Node → Bool
  | Node.element name _ _ _ _ _ => name == t
  | Node.other _ _ => false

/-- Number of elements named `t` among sibling nodes (direct children only). -/
def countNamed (t : QString) (ns : List Node) : Nat :=
  (ns.filter (Node.isNamed t)).length

/-- The value of `lastOffset` when the token after `toks` is read: `0` at the start
of a scan, else the character offset reported after the last token, minus one. -/
def offsetBefore (toks : List Token) : Int :=
  match toks.getLast? with
  | none => 0
  | some t => t.characterOffset - 1

/-- Whether a node is not an element (text, comment, document start or end). -/
def Node.isOther : Node → Bool
  | Node.element _ _ _ _ _ _ => false
  | Node.other _ _ => true

/-- The token stream of a well-formed document: the tokens before the root (none
of them an element), the root element, the tokens after it. -/
def documentTokens (prolog : List Node) (root : Node) (epilog : List Node) : List Token :=
  Node.tokensOfList prolog ++ (root.tokens ++ Node.tokensOfList epilog)

/-- The value `lastOffset` takes while the tokens `toks` are read, starting from
the value `l`. -/
def lastOff (l : Int) (toks : List Token) : Int :=
  toks.foldl (fun _ t => t.characterOffset - 1) l

/-- Whether `toks`, read from relative depth `d` (depth `0` is that of a start tag
just matched), holds an end-element token named `leaf` at depth `0`. -/
def closesAt (leaf : QString) : Int → List Token → Bool
  | _, [] => false
  | d, t :: ts =>
    match t.type with
    | TokenType.StartElement => closesAt leaf (d + 1) ts
    | TokenType.EndElement => (d == 0 && t.name == leaf) || closesAt leaf (d - 1) ts
    | TokenType.Other => closesAt leaf d ts

mutual
/-- The chains of tag names, read from the root down, of an element and of all
the elements below it; `up` is the chain of the parent. -/
def Node.chains (up : List QString) : Node → List (List QString)
  | Node.element name _ _ children _ _ =>
    (up ++ [name]) :: Node.chainsOfList (up ++ [name]) children
  | Node.other _ _ => []
/-- The chains of the elements among sibling nodes and below them. -/
def Node.chainsOfList (up : List QString) : List Node → List (List QString)
  | [] => []
  | n :: ns => Node.chains up n ++ Node.chainsOfList up ns
end

/-! ## Sample documents

Offsets are those of an idealised tokenizer: `characterOffset()` and the device
position both name the first character after the token. -/

/-- The bytes of a text. -/
def bytesOf (s : String) : QByteArray := s.toList.map Char.toNat

/-- An element without offsets of its own device position: both reports agree. -/
def el (name : String) (openOffset : Int) (children : List Node) (closeOffset : Int) : Node :=
  Node.element name.toList openOffset openOffset children closeOffset closeOffset

/-- Buffer with two adjacent siblings. -/
def bufSiblings : QByteArray := bytesOf "<r><t></t><t></t></r>"

/-- Root of `bufSiblings`. -/
def rootSiblings : Node := el "r" 3 [el "t" 6 [] 10, el "t" 13 [] 17] 21

/-- Buffer in which `t` lies under `b`, after an empty `a`. -/
def bufCousin : QByteArray := bytesOf "<r><a></a><b><t></t></b></r>"

/-- Root of `bufCousin`. -/
def rootCousin : Node := el "r" 3 [el "a" 6 [] 10, el "b" 13 [el "t" 16 [] 20] 24] 28

/-- Buffer without any `t`. -/
def bufOther : QByteArray := bytesOf "<r><u></u></r>"

/-- Root of `bufOther`. -/
def rootOther : Node := el "r" 3 [el "u" 6 [] 10] 14

/-- Truncated buffer: two start tags, no end tag. -/
def bufUnclosed : QByteArray := bytesOf "<root><item>"

/-- Tokens of `bufUnclosed`: document start, two start tags, the error token. -/
def tokensUnclosed : List Token :=
  [{ type := TokenType.Other, name := [], characterOffset := 0, pos := 0 },
   { type := TokenType.StartElement, name := "root".toList, characterOffset := 6, pos := 6 },
   { type := TokenType.StartElement, name := "item".toList, characterOffset := 12, pos := 12 },
   { type := TokenType.Other, name := [], characterOffset := 12, pos := 12 }]

/-- A tokenizer for the sample buffers. -/
def sampleLex (d : QByteArray) : List Token :=
  if d = bufSiblings then documentTokens [Node.other 0 0] rootSiblings [Node.other 21 21]
  else if d = bufCousin then documentTokens [Node.other 0 0] rootCousin [Node.other 28 28]
  else if d = bufOther then documentTokens [Node.other 0 0] rootOther [Node.other 14 14]
  else if d = bufUnclosed then tokensUnclosed
  else []

/-- A parser for the samples: every slice is its own document. -/
def sampleSetContent (d : QByteArray) : Except QString QByteArray := Except.ok d

/-- A registry holding the one domain `A`. -/
def sampleFactory : Factory QByteArray :=
  Factory.addData { mBuilders := [], mLastErrorMessage := [] } "A".toList bufSiblings

/-- Buffer with three adjacent siblings. -/
def bufTriple : QByteArray := bytesOf "<r><t></t><t></t><t></t></r>"

/-- Root of `bufTriple`. -/
def rootTriple : Node := el "r" 3 [el "t" 6 [] 10, el "t" 13 [] 17, el "t" 20 [] 24] 28

/-- Buffer with two elements `a`, the first empty, the second holding `t`. -/
def bufTwins : QByteArray := bytesOf "<r><a></a><a><t></t></a></r>"

/-- Root of `bufTwins`. -/
def rootTwins : Node := el "r" 3 [el "a" 6 [] 10, el "a" 13 [el "t" 16 [] 20] 24] 28

/-- Buffer of four bytes. -/
def bufShort : QByteArray := bytesOf "<r/>"

/-- Root of `bufShort`. -/
def rootShort : Node := el "r" 4 [] 4

/-- A tokenizer for the sample buffers above and those of `sampleLex`. -/
def sampleLexMore (d : QByteArray) : List Token :=
  if d = bufTriple then documentTokens [Node.other 0 0] rootTriple [Node.other 28 28]
  else if d = bufTwins then documentTokens [Node.other 0 0] rootTwins [Node.other 28 28]
  else if d = bufShort then documentTokens [Node.other 0 0] rootShort [Node.other 4 4]
  else sampleLex d

/-- Whether the positions a token list reports lie between `lo` and `len` and never
decrease: each character offset is at least the device position reported before
it and at most the device position reported with it. -/
def positionsWithin (len : Int) : Int → List Token → Bool
  | _, [] => true
  | lo, t :: ts =>
    decide (lo ≤ t.characterOffset) && decide (t.characterOffset ≤ t.pos) &&
      decide (t.pos ≤ len) && positionsWithin len t.pos ts

/-- The Builder after `find` has been called for the indices `0, 1, ..., k` in this
order, starting from the Builder `b`. -/
def findUpTo (lex : QByteArray → List Token) (b : Builder) (aPath : QString) : Nat → Builder
  | 0 => (Builder.find lex b aPath 0).builder
  | k + 1 => (Builder.find lex (findUpTo lex b aPath k) aPath (k + 1)).builder

/-- Number of tokens read by the calls `find(aPath, 0), ..., find(aPath, k)` made in
this order on one newly constructed Builder. -/
def sequentialReads (lex : QByteArray → List Token) (data : QByteArray) (aPath : QString)
    (k : Nat) : Nat :=
  (findUpTo lex (Builder.new data) aPath k).mReader.reads

/-- Number of tokens read by the calls `find(aPath, 0), ..., find(aPath, k)`, each made
on a newly constructed Builder of its own. -/
def coldReads (lex : QByteArray → List Token) (data : QByteArray) (aPath : QString) :
    Nat → Nat
  | 0 => (Builder.find lex (Builder.new data) aPath 0).builder.mReader.reads
  | k + 1 =>
    coldReads lex data aPath k +
      (Builder.find lex (Builder.new data) aPath (k + 1)).builder.mReader.reads

/-- The part of the locals that decides what the loop does with the next tokens:
the difference of the two depths, the countdown, the queue and the two flags. -/
def control (s : ScanState) : Int × Nat × List QString × Bool × Bool :=
  (s.level - s.globalLevel, s.currentLeafTagIndex, s.tags, s.startFound, s.endFound)

/-- Result of resolving a path on part of a document tree as the specification
words it: `found` with the offsets of the selected element, `next` when the part
holds nothing that ends the search (the leaf countdown and the last offset to go
on with), `undecided` when the first occurrence of a non-leaf segment does not
hold the selected leaf (nothing is stated then). -/
inductive Outcome where
  | found (startOffset endOffset : Int) : Outcome
  | next (count : Nat) (lastOffset : Int) : Outcome
  | undecided : Outcome
  deriving DecidableEq, Repr

mutual
/-- Path resolution on one node, following the specification: a non-leaf segment
is matched by the first element of that name among the siblings and the search
goes on among the children of that element; the leaf segment selects among the
siblings named like it, counting down the sibling index. The start offset is the
last offset before the start tag, the end offset the position at the end tag. -/
def Node.resolve : Node → List QString → Nat → Int → Outcome
  | Node.other o _, _, c, _ => Outcome.next c (o - 1)
  | Node.element name oo _ children co cp, tags, c, lo =>
    match tags with
    | [] => Outcome.undecided
    | [leaf] =>
      if name = leaf then
        (if c = 0 then Outcome.found lo cp else Outcome.next (c - 1) (co - 1))
      else Outcome.next c (co - 1)
    | s :: s2 :: more =>
      if name = s then
        match Node.resolveList children (s2 :: more) c (oo - 1) with
        | Outcome.found a b => Outcome.found a b
        | _ => Outcome.undecided
      else Outcome.next c (co - 1)
/-- Path resolution on sibling nodes, in document order. -/
def Node.resolveList : List Node → List QString → Nat → Int → Outcome
  | [], _, c, lo => Outcome.next c lo
  | n :: ns, tags, c, lo =>
    match Node.resolve n tags c lo with
    | Outcome.found a b => Outcome.found a b
    | Outcome.next c2 lo2 => Node.resolveList ns tags c2 lo2
    | Outcome.undecided => Outcome.undecided
end

/-- Buffer with two elements `a`, each holding two `t`. -/
def bufNested : QByteArray := bytesOf "<r><a><t></t><t></t></a><a><t></t><t></t></a></r>"

/-- Root of `bufNested`. -/
def rootNested : Node :=
  el "r" 3 [el "a" 6 [el "t" 9 [] 13, el "t" 16 [] 20] 24,
    el "a" 27 [el "t" 30 [] 34, el "t" 37 [] 41] 45] 49

/-- A tokenizer for `bufNested` and the sample buffers of `sampleLexMore`. -/
def sampleLexNested (d : QByteArray) : List Token :=
  if d = bufNested then documentTokens [Node.other 0 0] rootNested [Node.other 49 49]
  else sampleLexMore d

/-! ## Theorems -/

open TokenType

theorem scanLoop_done (s : ScanState) (toks : List Token) (h : s.endFound = true) :
    scanLoop s toks = (s, toks) := by
  cases toks <;> simp [scanLoop, h]

theorem scanLoop_cons (s : ScanState) (t : Token) (ts : List Token) (h : s.endFound = false) :
    scanLoop s (t :: ts) = scanLoop (scanStep s t) ts := by
  simp [scanLoop, h]

theorem step_other (lv gl : Int) (c : Nat) (tags : List QString) (sf ef : Bool) (so eo lo : Int)
    (n : QString) (o p : Int) :
    scanStep ⟨lv, gl, c, tags, sf, ef, so, eo, lo⟩ ⟨Other, n, o, p⟩ =
      ⟨lv, gl, c, tags, sf, ef, so, eo, o - 1⟩ := by
  simp [scanStep]

theorem step_start_skip (lv gl : Int) (c : Nat) (tags : List QString) (sf ef : Bool)
    (so eo lo : Int) (n : QString) (o p : Int)
    (h : sf = true ∨ tags.head? ≠ some n ∨ lv ≠ gl) :
    scanStep ⟨lv, gl, c, tags, sf, ef, so, eo, lo⟩ ⟨StartElement, n, o, p⟩ =
      ⟨lv, gl + 1, c, tags, sf, ef, so, eo, o - 1⟩ := by
  rcases h with h | h | h <;> simp [scanStep, onStartElement, h]

theorem step_end_skip (lv gl : Int) (c : Nat) (tags : List QString) (sf ef : Bool)
    (so eo lo : Int) (n : QString) (o p : Int)
    (h : sf = false ∨ tags.head? ≠ some n ∨ lv ≠ gl) :
    scanStep ⟨lv, gl, c, tags, sf, ef, so, eo, lo⟩ ⟨EndElement, n, o, p⟩ =
      ⟨lv, gl - 1, c, tags, sf, ef, so, eo, o - 1⟩ := by
  rcases h with h | h | h <;> simp [scanStep, onEndElement, h]

theorem step_start_pop (gl : Int) (c : Nat) (x y : QString) (tags : List QString) (ef : Bool)
    (so eo lo : Int) (o p : Int) :
    scanStep ⟨gl, gl, c, x :: y :: tags, false, ef, so, eo, lo⟩ ⟨StartElement, x, o, p⟩ =
      ⟨gl + 1, gl + 1, c, y :: tags, false, ef, so, eo, o - 1⟩ := by
  simp [scanStep, onStartElement]

theorem step_start_count (gl : Int) (c : Nat) (x : QString) (ef : Bool)
    (so eo lo : Int) (o p : Int) :
    scanStep ⟨gl, gl, c + 1, [x], false, ef, so, eo, lo⟩ ⟨StartElement, x, o, p⟩ =
      ⟨gl, gl + 1, c, [x], false, ef, so, eo, o - 1⟩ := by
  simp [scanStep, onStartElement]

theorem step_start_hit (gl : Int) (x : QString) (ef : Bool)
    (so eo lo : Int) (o p : Int) :
    scanStep ⟨gl, gl, 0, [x], false, ef, so, eo, lo⟩ ⟨StartElement, x, o, p⟩ =
      ⟨gl + 1, gl + 1, 0, [x], true, ef, lo, eo, o - 1⟩ := by
  simp [scanStep, onStartElement]

theorem step_end_hit (gl : Int) (c : Nat) (x : QString) (tags : List QString) (ef : Bool)
    (so eo lo : Int) (o p : Int) :
    scanStep ⟨gl, gl, c, x :: tags, true, ef, so, eo, lo⟩ ⟨EndElement, x, o, p⟩ =
      ⟨gl, gl - 1, c, x :: tags, true, true, so, p, o - 1⟩ := by
  simp [scanStep, onEndElement]

theorem lastOff_append (l : Int) (a b : List Token) :
    lastOff l (a ++ b) = lastOff (lastOff l a) b := by
  simp [lastOff, List.foldl_append]

mutual
theorem skip_node : ∀ (n : Node) (lv gl : Int) (c : Nat) (tags : List QString) (sf : Bool)
    (so eo lo : Int) (rest : List Token), (lv < gl ∨ (sf = true ∧ lv ≤ gl)) →
    scanLoop ⟨lv, gl, c, tags, sf, false, so, eo, lo⟩ (n.tokens ++ rest) =
      scanLoop ⟨lv, gl, c, tags, sf, false, so, eo, lastOff lo n.tokens⟩ rest
  | Node.element name oo op kids co cp, lv, gl, c, tags, sf, so, eo, lo, rest, hg => by
    have hk := skip_list kids lv (gl + 1) c tags sf so eo (oo - 1)
      ({ type := EndElement, name := name, characterOffset := co, pos := cp } :: rest)
      (Or.inl (by rcases hg with hg | hg <;> omega))
    simp only [Node.tokens, List.cons_append, List.append_assoc, List.singleton_append,
      List.nil_append]
    rw [scanLoop_cons _ _ _ rfl, step_start_skip, hk, scanLoop_cons _ _ _ rfl, step_end_skip]
    · simp [lastOff, List.foldl_append]
    · right; right
      rcases hg with hg | hg <;> omega
    · rcases hg with hg | hg
      · right; right; omega
      · left; exact hg.1
  | Node.other o p, lv, gl, c, tags, sf, so, eo, lo, rest, _ => by
    simp only [Node.tokens, List.singleton_append]
    rw [scanLoop_cons _ _ _ rfl, step_other]
    simp [lastOff]
theorem skip_list : ∀ (ns : List Node) (lv gl : Int) (c : Nat) (tags : List QString) (sf : Bool)
    (so eo lo : Int) (rest : List Token), (lv < gl ∨ (sf = true ∧ lv ≤ gl)) →
    scanLoop ⟨lv, gl, c, tags, sf, false, so, eo, lo⟩ (Node.tokensOfList ns ++ rest) =
      scanLoop ⟨lv, gl, c, tags, sf, false, so, eo, lastOff lo (Node.tokensOfList ns)⟩ rest
  | [], lv, gl, c, tags, sf, so, eo, lo, rest, _ => by
    simp [Node.tokensOfList, lastOff]
  | n :: ns, lv, gl, c, tags, sf, so, eo, lo, rest, h => by
    simp only [Node.tokensOfList, List.append_assoc]
    rw [skip_node n lv gl c tags sf so eo lo _ h, skip_list ns lv gl c tags sf so eo _ rest h]
    simp [lastOff_append]
end


theorem countNamed_cons (t : QString) (n : Node) (ns : List Node) :
    countNamed t (n :: ns) = (if n.isNamed t then 1 else 0) + countNamed t ns := by
  unfold countNamed
  by_cases h : n.isNamed t = true
  · simp [List.filter_cons, h]; omega
  · simp [List.filter_cons, h]

theorem scan_siblings (t : QString) (g : Int) (so eo : Int) (rest : List Token) :
    ∀ (ns : List Node) (c : Nat) (lo : Int), countNamed t ns ≤ c →
    scanLoop ⟨g, g, c, [t], false, false, so, eo, lo⟩ (Node.tokensOfList ns ++ rest) =
      scanLoop ⟨g, g, c - countNamed t ns, [t], false, false, so, eo,
        lastOff lo (Node.tokensOfList ns)⟩ rest
  | [], c, lo, _ => by simp [Node.tokensOfList, lastOff, countNamed]
  | Node.other o p :: ns, c, lo, h => by
    rw [countNamed_cons] at h ⊢
    simp only [Node.isNamed, Bool.false_eq_true, if_false, Nat.zero_add] at h ⊢
    simp only [Node.tokensOfList, Node.tokens, List.singleton_append, List.cons_append,
      List.nil_append]
    rw [scanLoop_cons _ _ _ rfl, step_other, scan_siblings t g so eo rest ns c _ h]
    simp [lastOff]
  | Node.element name oo op kids co cp :: ns, c, lo, h => by
    rw [countNamed_cons] at h ⊢
    simp only [Node.tokensOfList, Node.tokens, List.cons_append, List.append_assoc,
      List.singleton_append, List.nil_append]
    by_cases hn : name = t
    · subst hn
      simp only [Node.isNamed, beq_self_eq_true, if_true] at h ⊢
      obtain ⟨c', rfl⟩ : ∃ c', c = c' + 1 := ⟨c - 1, by omega⟩
      rw [scanLoop_cons _ _ _ rfl, step_start_count,
        skip_list kids g (g + 1) c' [name] false so eo _ _ (Or.inl (by omega)),
        scanLoop_cons _ _ _ rfl, step_end_skip _ _ _ _ _ _ _ _ _ _ _ _ (Or.inl rfl),
        show g + 1 - 1 = g by omega,
        scan_siblings name g so eo rest ns c' _ (by omega),
        show c' + 1 - (1 + countNamed name ns) = c' - countNamed name ns by omega]
      simp [lastOff, List.foldl_append]
    · have hn2 : (name == t) = false := by simpa using hn
      simp only [Node.isNamed, hn2, Bool.false_eq_true, if_false, Nat.zero_add] at h ⊢
      rw [scanLoop_cons _ _ _ rfl, step_start_skip _ _ _ _ _ _ _ _ _ _ _ _
          (Or.inr (Or.inl (by simpa using fun h => hn h.symm))),
        skip_list kids g (g + 1) c [t] false so eo _ _ (Or.inl (by omega)),
        scanLoop_cons _ _ _ rfl, step_end_skip _ _ _ _ _ _ _ _ _ _ _ _ (Or.inl rfl),
        show g + 1 - 1 = g by omega,
        scan_siblings t g so eo rest ns c _ h]
      simp [lastOff, List.foldl_append]

theorem scan_hit (t : QString) (g : Int) (so eo lo : Int) (oo op : Int) (kids : List Node)
    (co cp : Int) (rest : List Token) :
    scanLoop ⟨g, g, 0, [t], false, false, so, eo, lo⟩
        ((Node.element t oo op kids co cp).tokens ++ rest) =
      (⟨g + 1, g, 0, [t], true, true, lo, cp, co - 1⟩, rest) := by
  simp only [Node.tokens, List.cons_append, List.append_assoc, List.singleton_append,
    List.nil_append]
  rw [scanLoop_cons _ _ _ rfl, step_start_hit,
    skip_list kids (g + 1) (g + 1) 0 [t] true lo eo _ _ (Or.inr ⟨rfl, le_refl _⟩),
    scanLoop_cons _ _ _ rfl, step_end_hit, scanLoop_done _ _ rfl,
    show g + 1 - 1 = g by omega]

theorem scan_others (lv gl : Int) (c : Nat) (tags : List QString) (sf : Bool) (so eo : Int)
    (rest : List Token) :
    ∀ (ns : List Node) (lo : Int), ns.all Node.isOther = true →
    scanLoop ⟨lv, gl, c, tags, sf, false, so, eo, lo⟩ (Node.tokensOfList ns ++ rest) =
      scanLoop ⟨lv, gl, c, tags, sf, false, so, eo, lastOff lo (Node.tokensOfList ns)⟩ rest
  | [], lo, _ => by simp [Node.tokensOfList, lastOff]
  | Node.other o p :: ns, lo, h => by
    simp only [List.all_cons, Node.isOther, Bool.true_and] at h
    simp only [Node.tokensOfList, Node.tokens, List.singleton_append, List.cons_append,
      List.nil_append]
    rw [scanLoop_cons _ _ _ rfl, step_other, scan_others lv gl c tags sf so eo rest ns _ h]
    simp [lastOff]
  | Node.element _ _ _ _ _ _ :: ns, lo, h => by
    simp [Node.isOther] at h

theorem lastOff_eq_offsetBefore (toks : List Token) : lastOff 0 toks = offsetBefore toks := by
  unfold offsetBefore lastOff
  rcases List.eq_nil_or_concat toks with h | ⟨l, a, h⟩
  · subst h; simp
  · subst h; simp [List.foldl_append]


theorem Builder.new_eq (data : QByteArray) :
    Builder.new data = ⟨data, ⟨[], 0⟩, ⟨50, []⟩, [], [], 0⟩ := by
  simp [Builder.new, Builder.blank, Builder.setData, Builder.setCacheSize, QCache.setMaxCost,
    QCache.trim, QCache.trimRev, QCache.empty, uintToInt, cDefaultBuilderCacheSize, uintRange]

theorem find_new (lex : QByteArray → List Token) (data : QByteArray) (aPath : QString)
    (idx : Nat) (hp : CleanPath aPath ≠ []) :
    let s := (scanLoop (scanInit (split '/' (CleanPath aPath)) idx) (lex data)).1
    let res := Builder.find lex (Builder.new data) aPath idx
    res.ok = (s.startFound && s.endFound) ∧
    res.range = (if s.startFound && s.endFound then some (s.startOffset, s.endOffset) else none) ∧
    res.builder.mLastErrorMessage =
      (if !s.startFound then cStartElementNotFound
       else if !s.endFound then cEndElementNotFound else []) := by
  intro s res
  have hseq : Builder.isSequential ⟨data, ⟨[], 0⟩, ⟨50, []⟩, [], [], 0⟩ (CleanPath aPath) idx
      = false := by
    simp [Builder.isSequential, hp]
  have hres : res = Builder.find lex ⟨data, ⟨[], 0⟩, ⟨50, []⟩, [], [], 0⟩ aPath idx := by
    simp only [res, Builder.new_eq]
  have he : (CleanPath aPath).isEmpty = false := by
    cases h : CleanPath aPath with
    | nil => exact absurd h hp
    | cons _ _ => rfl
  rw [hres]
  simp only [Builder.find, he, Builder.checkCache, QCache.object, List.find?_nil, Builder.scan,
    hseq]
  refine ⟨rfl, rfl, ?_⟩
  simp only [Bool.false_eq_true, if_false]
  split_ifs <;> rfl


theorem split_noSep (sep : Char) : ∀ (s : QString), sep ∉ s → split sep s = [s]
  | [], _ => rfl
  | c :: cs, h => by
    have h1 : c ≠ sep := fun e => h (by simp [e])
    have h2 : sep ∉ cs := fun e => h (by simp [e])
    simp [split, h1, split_noSep sep cs h2]

theorem split_append_sep (sep : Char) (t : QString) :
    ∀ (r : QString), sep ∉ r → split sep (r ++ sep :: t) = r :: split sep t
  | [], _ => by simp [split]
  | c :: cs, h => by
    have h1 : c ≠ sep := fun e => h (by simp [e])
    have h2 : sep ∉ cs := fun e => h (by simp [e])
    simp [split, h1, split_append_sep sep t cs h2]

theorem CleanPath_pair (r t : QString) (hr : r ≠ []) (hr1 : '/' ∉ r) (ht : t ≠ [])
    (ht1 : '/' ∉ t) : CleanPath (r ++ '/' :: t) = r ++ '/' :: t := by
  obtain ⟨c, cs, rfl⟩ := List.exists_cons_of_ne_nil hr
  obtain ⟨d, ds, rfl⟩ := List.exists_cons_of_ne_nil ht
  have h1 : c ≠ '/' := fun e => hr1 (by simp [e])
  have h2 : (c :: cs ++ '/' :: d :: ds).getLast? ≠ some '/' := by
    intro e
    have e2 : (d :: ds).getLast? = some '/' := by
      rw [List.getLast?_append_of_ne_nil _ (by simp), List.getLast?_cons_cons] at e
      exact e
    exact ht1 (List.mem_of_getLast?_eq_some e2)
  simp only [CleanPath, List.cons_append, List.head?_cons, Option.some.injEq, h1, if_false]
  rw [if_neg]
  simpa using h2

theorem tokensOfList_append : ∀ (a b : List Node),
    Node.tokensOfList (a ++ b) = Node.tokensOfList a ++ Node.tokensOfList b
  | [], b => by simp [Node.tokensOfList]
  | n :: a, b => by simp [Node.tokensOfList, tokensOfList_append a b]

theorem exists_nth_named (t : QString) : ∀ (ns : List Node) (i : Nat), i < countNamed t ns →
    ∃ before so sp kids eo ep after,
      ns = before ++ Node.element t so sp kids eo ep :: after ∧ countNamed t before = i
  | [], i, h => by simp [countNamed] at h
  | n :: ns, i, h => by
    rw [countNamed_cons] at h
    by_cases hn : n.isNamed t = true
    · cases i with
      | zero =>
        cases n with
        | other o p => simp [Node.isNamed] at hn
        | element name so sp kids eo ep =>
          have : name = t := by simpa [Node.isNamed] using hn
          subst this
          exact ⟨[], so, sp, kids, eo, ep, ns, rfl, rfl⟩
      | succ j =>
        simp only [hn, if_true] at h
        obtain ⟨before, so, sp, kids, eo, ep, after, h1, h2⟩ :=
          exists_nth_named t ns j (by omega)
        refine ⟨n :: before, so, sp, kids, eo, ep, after, by simp [h1], ?_⟩
        rw [countNamed_cons, h2]; simp [hn]; omega
    · simp only [hn, Bool.false_eq_true, if_false, Nat.zero_add] at h
      obtain ⟨before, so, sp, kids, eo, ep, after, h1, h2⟩ := exists_nth_named t ns i h
      refine ⟨n :: before, so, sp, kids, eo, ep, after, by simp [h1], ?_⟩
      rw [countNamed_cons, h2]; simp [hn]


theorem scan_root_hit (r t : QString) (prolog epilog before after kids : List Node)
    (oo op co cp so sp eo ep : Int) (i : Nat)
    (hpro : prolog.all Node.isOther = true) (hcount : countNamed t before = i) :
    (scanLoop (scanInit [r, t] i)
      (documentTokens prolog
        (Node.element r oo op (before ++ Node.element t so sp kids eo ep :: after) co cp)
        epilog)).1 =
      ⟨2, 1, 0, [t], true, true,
        offsetBefore (Node.tokensOfList prolog ++
          { type := StartElement, name := r, characterOffset := oo, pos := op } ::
            Node.tokensOfList before), ep, eo - 1⟩ := by
  simp only [documentTokens, scanInit, Node.tokens, tokensOfList_append, Node.tokensOfList,
    List.cons_append, List.append_assoc]
  rw [scan_others _ _ _ _ _ _ _ _ prolog 0 hpro, scanLoop_cons _ _ _ rfl, step_start_pop,
    scan_siblings t (0 + 1) 0 0 _ before i _ (le_of_eq hcount), hcount, Nat.sub_self]
  have := scan_hit t (0 + 1) 0 0 (lastOff (oo - 1) (Node.tokensOfList before)) so sp kids eo ep
  simp only [Node.tokens, List.cons_append, List.append_assoc] at this
  rw [this]
  simp [← lastOff_eq_offsetBefore, lastOff, List.foldl_append]

theorem scan_root_miss (r t : QString) (prolog epilog children : List Node)
    (oo op co cp : Int) (i : Nat)
    (hpro : prolog.all Node.isOther = true) (hepi : epilog.all Node.isOther = true)
    (hcount : countNamed t children ≤ i) :
    (scanLoop (scanInit [r, t] i)
      (documentTokens prolog (Node.element r oo op children co cp) epilog)).1.startFound
      = false := by
  simp only [documentTokens, scanInit, Node.tokens, List.cons_append, List.append_assoc]
  rw [scan_others _ _ _ _ _ _ _ _ prolog 0 hpro, scanLoop_cons _ _ _ rfl, step_start_pop,
    scan_siblings t (0 + 1) 0 0 _ children i _ hcount]
  rw [scanLoop_cons _ _ _ rfl, step_end_skip _ _ _ _ _ _ _ _ _ _ _ _ (Or.inl rfl)]
  have := scan_others (0 + 1) (0 + 1 - 1) (i - countNamed t children) [t] false 0 0 [] epilog
    (co - 1) hepi
  simp only [List.append_nil] at this
  rw [List.nil_append, this]
  simp [scanLoop]

/-- C1: on a well-formed document whose root is named `r`, `Builder::find` of the
path `r/t` with sibling index `i` on a new Builder succeeds when `i` is below the
number of direct children named `t`; the range it returns starts at the offset
recorded after the token before the start tag of the child named `t` that has
exactly `i` earlier siblings named `t`, and ends at the position reported at that
child's end tag; when `i` is not below that number the call fails with the
start-element-not-found message. -/
theorem find_root_child (lex : QByteArray → List Token) (data : QByteArray) (r t : QString)
    (prolog epilog children : List Node) (oo op co cp : Int) (i : Nat)
    (hr : r ≠ [] ∧ '/' ∉ r) (ht : t ≠ [] ∧ '/' ∉ t)
    (hpro : prolog.all Node.isOther = true) (hepi : epilog.all Node.isOther = true)
    (hlex : lex data = documentTokens prolog (Node.element r oo op children co cp) epilog) :
    (i < countNamed t children →
      (Builder.find lex (Builder.new data) (r ++ '/' :: t) i).ok = true) ∧
    (∀ before after kids so sp eo ep,
      children = before ++ Node.element t so sp kids eo ep :: after →
      countNamed t before = i →
      (Builder.find lex (Builder.new data) (r ++ '/' :: t) i).ok = true ∧
      (Builder.find lex (Builder.new data) (r ++ '/' :: t) i).range =
        some (offsetBefore (Node.tokensOfList prolog ++
          { type := StartElement, name := r, characterOffset := oo, pos := op } ::
            Node.tokensOfList before), ep)) ∧
    (countNamed t children ≤ i →
      (Builder.find lex (Builder.new data) (r ++ '/' :: t) i).ok = false ∧
      (Builder.find lex (Builder.new data) (r ++ '/' :: t) i).range = none ∧
      (Builder.find lex (Builder.new data) (r ++ '/' :: t) i).builder.mLastErrorMessage =
        cStartElementNotFound) := by
  have hclean := CleanPath_pair r t hr.1 hr.2 ht.1 ht.2
  have hne : CleanPath (r ++ '/' :: t) ≠ [] := by rw [hclean]; simp
  have hsplit : split '/' (CleanPath (r ++ '/' :: t)) = [r, t] := by
    rw [hclean, split_append_sep '/' t r hr.2, split_noSep '/' t ht.2]
  obtain ⟨hok, hrange, herr⟩ := find_new lex data (r ++ '/' :: t) i hne
  rw [hsplit, hlex] at hok hrange herr
  refine ⟨?_, ?_, ?_⟩
  · intro hi
    obtain ⟨before, so, sp, kids, eo, ep, after, hch, hcnt⟩ := exists_nth_named t children i hi
    subst hch
    rw [hok, scan_root_hit r t prolog epilog before after kids oo op co cp so sp eo ep i hpro hcnt]
    rfl
  · intro before after kids so sp eo ep hch hcnt
    subst hch
    rw [hok, hrange,
      scan_root_hit r t prolog epilog before after kids oo op co cp so sp eo ep i hpro hcnt]
    exact ⟨rfl, rfl⟩
  · intro hle
    have hsf := scan_root_miss r t prolog epilog children oo op co cp i hpro hepi hle
    rw [hok, hrange, herr, hsf]
    simp


theorem object_miss {V : Type} (c : QCache V) (k : QString) (h : (c.object k).1 = none) :
    (c.object k).2 = c := by
  unfold QCache.object at h ⊢
  cases hf : c.nodes.find? (fun n => n.key == k) with
  | none => rfl
  | some n => rw [hf] at h; simp at h

theorem object_hit_again {V : Type} (c : QCache V) (k : QString) (v : V)
    (h : (c.object k).1 = some v) : ((c.object k).2.object k).1 = some v := by
  unfold QCache.object at h ⊢
  cases hf : c.nodes.find? (fun n => n.key == k) with
  | none => rw [hf] at h; simp at h
  | some n =>
    rw [hf] at h
    have hk : (n.key == k) = true := by simpa using List.find?_some hf
    simp only [List.find?_cons, hk]
    simpa using h

theorem object_insert {V : Type} (c : QCache V) (k : QString) (v : V) (cost : Int)
    (h : cost ≤ c.mx) : ((c.insert k v cost).object k).1 = some v := by
  have h1 : ¬ cost > (c.remove k).mx := by
    simp only [QCache.remove]; omega
  simp [QCache.insert, h1, QCache.object, QCache.trim]

theorem find_hit (lex : QByteArray → List Token) (b : Builder) (aPath : QString) (idx : Nat)
    (item : TCacheItem) (hp : CleanPath aPath ≠ [])
    (hh : (b.mCache.object (CleanPath aPath ++ tagIndexText idx)).1 = some item) :
    Builder.find lex b aPath idx =
      { ok := true, range := some item,
        builder := { b with
          mCache := (b.mCache.object (CleanPath aPath ++ tagIndexText idx)).2,
          mLastErrorMessage := [], mLastPath := CleanPath aPath, mLastLeafTagIndex := idx } } := by
  have he : (CleanPath aPath).isEmpty = false := by
    cases h : CleanPath aPath with
    | nil => exact absurd h hp
    | cons _ _ => rfl
  simp [Builder.find, he, Builder.checkCache, hh, scanInit]

theorem find_miss (lex : QByteArray → List Token) (b : Builder) (aPath : QString) (idx : Nat)
    (hp : CleanPath aPath ≠ [])
    (hm : (b.mCache.object (CleanPath aPath ++ tagIndexText idx)).1 = none) :
    Builder.find lex b aPath idx =
      { ok := (b.scan lex (CleanPath aPath) idx).1.startFound &&
          (b.scan lex (CleanPath aPath) idx).1.endFound,
        range :=
          if (b.scan lex (CleanPath aPath) idx).1.startFound &&
              (b.scan lex (CleanPath aPath) idx).1.endFound then
            some ((b.scan lex (CleanPath aPath) idx).1.startOffset,
              (b.scan lex (CleanPath aPath) idx).1.endOffset)
          else none,
        builder := { b with
          mReader := (b.scan lex (CleanPath aPath) idx).2,
          mCache :=
            if (b.scan lex (CleanPath aPath) idx).1.startFound &&
                (b.scan lex (CleanPath aPath) idx).1.endFound then
              Builder.updateCache b.mCache (CleanPath aPath ++ tagIndexText idx)
                (b.scan lex (CleanPath aPath) idx).1.startOffset
                (b.scan lex (CleanPath aPath) idx).1.endOffset
            else b.mCache,
          mLastErrorMessage :=
            if !(b.scan lex (CleanPath aPath) idx).1.startFound then cStartElementNotFound
            else if !(b.scan lex (CleanPath aPath) idx).1.endFound then cEndElementNotFound
            else [],
          mLastPath := CleanPath aPath, mLastLeafTagIndex := idx } } := by
  have he : (CleanPath aPath).isEmpty = false := by
    cases h : CleanPath aPath with
    | nil => exact absurd h hp
    | cons _ _ => rfl
  have h2 := object_miss _ _ hm
  simp only [Builder.find, he, Builder.checkCache, hm, h2, Bool.false_eq_true, if_false,
    Option.isSome_none, Bool.not_false, if_true]
  cases hs : (b.scan lex (CleanPath aPath) idx).1.startFound <;>
    cases hf : (b.scan lex (CleanPath aPath) idx).1.endFound <;> simp

theorem find_empty (lex : QByteArray → List Token) (b : Builder) (aPath : QString) (idx : Nat)
    (hp : CleanPath aPath = []) :
    Builder.find lex b aPath idx = { ok := false, range := none, builder := b } := by
  simp [Builder.find, hp]

/-- C5: with an offset cache of capacity at least one, a successful
`Builder::find` followed at once by `Builder::find` of the same path and index
succeeds again, leaves the reader untouched (no token is read) and returns the
same range. -/
theorem find_again_cached (lex : QByteArray → List Token) (b : Builder) (aPath : QString)
    (idx : Nat) (hcap : 1 ≤ b.mCache.mx) (hok : (Builder.find lex b aPath idx).ok = true) :
    (Builder.find lex (Builder.find lex b aPath idx).builder aPath idx).ok = true ∧
    (Builder.find lex (Builder.find lex b aPath idx).builder aPath idx).range =
      (Builder.find lex b aPath idx).range ∧
    (Builder.find lex (Builder.find lex b aPath idx).builder aPath idx).builder.mReader =
      (Builder.find lex b aPath idx).builder.mReader := by
  by_cases hp : CleanPath aPath = []
  · rw [find_empty lex b aPath idx hp] at hok
    simp at hok
  · cases hh : (b.mCache.object (CleanPath aPath ++ tagIndexText idx)).1 with
    | some item =>
      have h1 := find_hit lex b aPath idx item hp hh
      have h2 := find_hit lex (Builder.find lex b aPath idx).builder aPath idx item hp
        (by rw [h1]; exact object_hit_again _ _ _ hh)
      rw [h2]
      simp [h1]
    | none =>
      have h1 := find_miss lex b aPath idx hp hh
      rw [h1] at hok
      simp only at hok
      have h2 := find_hit lex (Builder.find lex b aPath idx).builder aPath idx
        ((b.scan lex (CleanPath aPath) idx).1.startOffset,
          (b.scan lex (CleanPath aPath) idx).1.endOffset) hp
        (by
          rw [h1]
          simp only [hok, if_true, Builder.updateCache]
          exact object_insert _ _ _ _ hcap)
      rw [h2]
      simp [h1, hok]

/-- C6: when `Builder::find` returns false the offset cache is left exactly as it
was: the same entries with the same ranges in the same order, and the same
bound. -/
theorem find_failure_keeps_cache (lex : QByteArray → List Token) (b : Builder)
    (aPath : QString) (idx : Nat) (hfail : (Builder.find lex b aPath idx).ok = false) :
    (Builder.find lex b aPath idx).builder.mCache = b.mCache := by
  by_cases hp : CleanPath aPath = []
  · rw [find_empty lex b aPath idx hp]
  · cases hh : (b.mCache.object (CleanPath aPath ++ tagIndexText idx)).1 with
    | some item =>
      rw [find_hit lex b aPath idx item hp hh] at hfail
      simp at hfail
    | none =>
      have h1 := find_miss lex b aPath idx hp hh
      rw [h1] at hfail ⊢
      simp only at hfail
      simp [hfail]


theorem split_ne_nil (sep : Char) : ∀ (s : QString), split sep s ≠ []
  | [] => by simp [split]
  | c :: cs => by
    unfold split
    split_ifs
    · simp
    · split <;> simp

theorem getLast?_tail_of_length {α : Type} (l : List α) (x : α) (h1 : l.head? = some x)
    (h2 : l.length ≠ 1) : l.tail.getLast? = l.getLast? := by
  match l, h1, h2 with
  | [_], _, h2 => simp at h2
  | _ :: b :: r, _, _ => simp [List.getLast?_cons_cons]

theorem scanStep_getLast (leaf : QString) (s : ScanState) (t : Token)
    (hl : s.tags.getLast? = some leaf) : (scanStep s t).tags.getLast? = some leaf := by
  obtain ⟨lv, gl, c, tags, sf, ef, so, eo, lo⟩ := s
  obtain ⟨ty, n, o, p⟩ := t
  cases ty
  · simp only [scanStep, onStartElement]
    split_ifs with h1 h2 h3
    · exact hl
    · exact hl
    · dsimp only at hl h1 h2 ⊢
      have h1b : (sf = false ∧ tags.head? = some n) ∧ lv = gl := by simpa using h1
      rw [getLast?_tail_of_length tags n h1b.1.2 (by simpa using h2)]
      exact hl
    · exact hl
  · simp only [scanStep, onEndElement]
    split_ifs <;> exact hl
  · exact hl

theorem scanStep_no_start (leaf : QString) (s : ScanState) (t : Token)
    (hs : s.startFound = false) (hl : s.tags.getLast? = some leaf)
    (ht : t.type = StartElement → t.name ≠ leaf) :
    (scanStep s t).startFound = false ∧ (scanStep s t).endFound = s.endFound := by
  obtain ⟨lv, gl, c, tags, sf, ef, so, eo, lo⟩ := s
  obtain ⟨ty, n, o, p⟩ := t
  dsimp only at hs hl ht
  subst hs
  cases ty
  · simp only [scanStep, onStartElement]
    split_ifs with h1 h2 h3
    · exact ⟨rfl, rfl⟩
    · exfalso
      have hlen : tags.length = 1 := by simpa using h2
      have hhead : tags.head? = some n := by
        have h1b : tags.head? = some n ∧ lv = gl := by simpa using h1
        exact h1b.1
      obtain ⟨x, rfl⟩ := List.length_eq_one.1 hlen
      simp at hhead hl
      exact ht rfl (hhead ▸ hl)
    · exact ⟨rfl, rfl⟩
    · exact ⟨rfl, rfl⟩
  · simp [scanStep, onEndElement]
  · simp [scanStep]

theorem scanLoop_no_start (leaf : QString) : ∀ (toks : List Token) (s : ScanState),
    s.startFound = false → s.tags.getLast? = some leaf →
    (∀ t ∈ toks, t.type = StartElement → t.name ≠ leaf) →
    (scanLoop s toks).1.startFound = false
  | [], s, hs, _, _ => by simpa [scanLoop] using hs
  | t :: ts, s, hs, hl, ht => by
    unfold scanLoop
    split_ifs
    · exact hs
    · have h1 := scanStep_no_start leaf s t hs hl (ht t (by simp))
      exact scanLoop_no_start leaf ts (scanStep s t) h1.1 (scanStep_getLast leaf s t hl)
        (fun u hu => ht u (by simp [hu]))

/-- C7: when the final segment of a non-empty cleaned path is not the name of any
start-element token of the stream, `Builder::find` on a new Builder returns
false, for every sibling index, and sets the last error to the
start-element-not-found message. -/
theorem find_leaf_absent (lex : QByteArray → List Token) (data : QByteArray) (aPath : QString)
    (idx : Nat) (hp : CleanPath aPath ≠ [])
    (habs : ∀ tok ∈ lex data, tok.type = TokenType.StartElement →
      some tok.name ≠ (split '/' (CleanPath aPath)).getLast?) :
    (Builder.find lex (Builder.new data) aPath idx).ok = false ∧
    (Builder.find lex (Builder.new data) aPath idx).range = none ∧
    (Builder.find lex (Builder.new data) aPath idx).builder.mLastErrorMessage =
      cStartElementNotFound := by
  obtain ⟨hok, hrange, herr⟩ := find_new lex data aPath idx hp
  obtain ⟨leaf, hleaf⟩ : ∃ leaf, (split '/' (CleanPath aPath)).getLast? = some leaf := by
    cases h : (split '/' (CleanPath aPath)).getLast? with
    | none => exact absurd (List.getLast?_eq_none_iff.1 h) (split_ne_nil _ _)
    | some leaf => exact ⟨leaf, rfl⟩
  have hsf : (scanLoop (scanInit (split '/' (CleanPath aPath)) idx) (lex data)).1.startFound
      = false :=
    scanLoop_no_start leaf (lex data) _ rfl hleaf
      (fun t ht hty e => habs t ht hty (by rw [hleaf, e]))
  rw [hok, hrange, herr, hsf]
  simp


theorem scanStep_startFound_mono (s : ScanState) (t : Token) (hs : s.startFound = true) :
    (scanStep s t).startFound = true := by
  obtain ⟨lv, gl, c, tags, sf, ef, so, eo, lo⟩ := s
  obtain ⟨ty, n, o, p⟩ := t
  dsimp only at hs
  subst hs
  cases ty
  · simp [scanStep, onStartElement]
  · simp only [scanStep, onEndElement]
    split_ifs <;> rfl
  · rfl

theorem foldl_startFound_mono : ∀ (toks : List Token) (s : ScanState),
    s.startFound = true → (toks.foldl scanStep s).startFound = true
  | [], _, hs => hs
  | t :: ts, s, hs => foldl_startFound_mono ts (scanStep s t) (scanStep_startFound_mono s t hs)

theorem scanStep_endFound_of_not_started (s : ScanState) (t : Token)
    (hs : s.startFound = false) : (scanStep s t).endFound = s.endFound := by
  obtain ⟨lv, gl, c, tags, sf, ef, so, eo, lo⟩ := s
  obtain ⟨ty, n, o, p⟩ := t
  dsimp only at hs
  subst hs
  cases ty
  · simp only [scanStep, onStartElement]
    split_ifs <;> rfl
  · simp [scanStep, onEndElement]
  · rfl

theorem scanLoop_before_start : ∀ (pre : List Token) (s : ScanState) (rest : List Token),
    s.endFound = false → (pre.foldl scanStep s).startFound = false →
    scanLoop s (pre ++ rest) = scanLoop (pre.foldl scanStep s) rest ∧
      (pre.foldl scanStep s).endFound = false
  | [], _, _, he, _ => ⟨rfl, he⟩
  | t :: ts, s, rest, he, hs => by
    have hs0 : s.startFound = false := by
      cases h : s.startFound with
      | false => rfl
      | true =>
        have := foldl_startFound_mono (t :: ts) s h
        rw [hs] at this
        exact absurd this (by simp)
    have he1 : (scanStep s t).endFound = false := by
      rw [scanStep_endFound_of_not_started s t hs0]; exact he
    have ih := scanLoop_before_start ts (scanStep s t) rest he1 hs
    simp only [List.cons_append, List.foldl_cons]
    rw [scanLoop_cons _ _ _ he]
    exact ih

theorem scanStep_hit_shape (s : ScanState) (t : Token) (hs : s.startFound = false)
    (ht : (scanStep s t).startFound = true) :
    s.tags = [t.name] ∧
      scanStep s t = ⟨s.level + 1, s.level + 1, s.currentLeafTagIndex, [t.name], true,
        s.endFound, s.lastOffset, s.endOffset, t.characterOffset - 1⟩ := by
  obtain ⟨lv, gl, c, tags, sf, ef, so, eo, lo⟩ := s
  obtain ⟨ty, n, o, p⟩ := t
  dsimp only at hs
  subst hs
  cases ty
  · simp only [scanStep, onStartElement] at ht ⊢
    split_ifs at ht ⊢ with h1 h2 h3
    · have h1b : tags.head? = some n ∧ lv = gl := by simpa using h1
      have hlen : tags.length = 1 := by simpa using h2
      obtain ⟨hh, hlv⟩ := h1b
      subst hlv
      obtain ⟨x, rfl⟩ := List.length_eq_one.1 hlen
      have hx : x = n := by simpa using hh
      subst hx
      have hc : c = 0 := by simpa using h3
      subst hc
      simp
  · simp [scanStep, onEndElement] at ht
  · simp [scanStep] at ht

theorem scanLoop_unclosed (leaf : QString) : ∀ (rest : List Token) (lv gl : Int) (c : Nat)
    (so eo lo : Int), closesAt leaf (gl - lv) rest = false →
    (scanLoop ⟨lv, gl, c, [leaf], true, false, so, eo, lo⟩ rest).1.startFound = true ∧
    (scanLoop ⟨lv, gl, c, [leaf], true, false, so, eo, lo⟩ rest).1.endFound = false
  | [], _, _, _, _, _, _, _ => by simp [scanLoop]
  | ⟨TokenType.StartElement, n, o, p⟩ :: ts, lv, gl, c, so, eo, lo, h => by
    rw [scanLoop_cons _ _ _ rfl, step_start_skip _ _ _ _ _ _ _ _ _ _ _ _ (Or.inl rfl)]
    simp only [closesAt] at h
    exact scanLoop_unclosed leaf ts lv (gl + 1) c so eo _
      (by rw [show gl + 1 - lv = gl - lv + 1 by omega]; exact h)
  | ⟨TokenType.EndElement, n, o, p⟩ :: ts, lv, gl, c, so, eo, lo, h => by
    simp only [closesAt, Bool.or_eq_false_iff, Bool.and_eq_false_imp, beq_iff_eq] at h
    have hskip : [leaf].head? ≠ some n ∨ lv ≠ gl := by
      by_cases hd : gl - lv = 0
      · left
        have := h.1 hd
        simp only [List.head?_cons, ne_eq, Option.some.injEq]
        intro e
        simp [e] at this
      · right; omega
    rw [scanLoop_cons _ _ _ rfl, step_end_skip _ _ _ _ _ _ _ _ _ _ _ _ (Or.inr hskip)]
    exact scanLoop_unclosed leaf ts lv (gl - 1) c so eo _
      (by rw [show gl - 1 - lv = gl - lv - 1 by omega]; exact h.2)
  | ⟨TokenType.Other, n, o, p⟩ :: ts, lv, gl, c, so, eo, lo, h => by
    rw [scanLoop_cons _ _ _ rfl, step_other]
    simp only [closesAt] at h
    exact scanLoop_unclosed leaf ts lv gl c so eo _ h

/-- C8: when the token stream ends after the start tag that the scan for the path
and index selects (the token `st`, reached after the tokens `pre`) and no
end-element token with the leaf name follows at the depth of that start tag,
`Builder::find` on a new Builder returns false and sets the last error to the
end-element-not-found message. -/
theorem find_unclosed (lex : QByteArray → List Token) (data : QByteArray) (aPath : QString)
    (idx : Nat) (pre rest : List Token) (st : Token) (leaf : QString)
    (hp : CleanPath aPath ≠ [])
    (hleaf : (split '/' (CleanPath aPath)).getLast? = some leaf)
    (hlex : lex data = pre ++ st :: rest)
    (hpre : (pre.foldl scanStep (scanInit (split '/' (CleanPath aPath)) idx)).startFound = false)
    (hst : (scanStep (pre.foldl scanStep (scanInit (split '/' (CleanPath aPath)) idx))
      st).startFound = true)
    (hrest : closesAt leaf 0 rest = false) :
    (Builder.find lex (Builder.new data) aPath idx).ok = false ∧
    (Builder.find lex (Builder.new data) aPath idx).range = none ∧
    (Builder.find lex (Builder.new data) aPath idx).builder.mLastErrorMessage =
      cEndElementNotFound := by
  obtain ⟨hok, hrange, herr⟩ := find_new lex data aPath idx hp
  obtain ⟨hloop, hef⟩ := scanLoop_before_start pre
    (scanInit (split '/' (CleanPath aPath)) idx) (st :: rest) rfl hpre
  obtain ⟨htags, hshape⟩ := scanStep_hit_shape _ st hpre hst
  have hl : ∀ (toks : List Token) (s : ScanState), s.tags.getLast? = some leaf →
      (toks.foldl scanStep s).tags.getLast? = some leaf := by
    intro toks
    induction toks with
    | nil => intro s h; exact h
    | cons t ts ih => intro s h; exact ih _ (scanStep_getLast leaf s t h)
  have hname : st.name = leaf := by
    have := hl pre (scanInit (split '/' (CleanPath aPath)) idx) hleaf
    rw [htags] at this
    simpa using this
  have hfinal := scanLoop_unclosed leaf rest
    ((pre.foldl scanStep (scanInit (split '/' (CleanPath aPath)) idx)).level + 1)
    ((pre.foldl scanStep (scanInit (split '/' (CleanPath aPath)) idx)).level + 1)
    (pre.foldl scanStep (scanInit (split '/' (CleanPath aPath)) idx)).currentLeafTagIndex
    (pre.foldl scanStep (scanInit (split '/' (CleanPath aPath)) idx)).lastOffset
    (pre.foldl scanStep (scanInit (split '/' (CleanPath aPath)) idx)).endOffset
    (st.characterOffset - 1) (by rw [sub_self]; exact hrest)
  have hscan : (scanLoop (scanInit (split '/' (CleanPath aPath)) idx) (lex data)).1.startFound
        = true ∧
      (scanLoop (scanInit (split '/' (CleanPath aPath)) idx) (lex data)).1.endFound = false := by
    rw [hlex, hloop, scanLoop_cons _ _ _ hef, hshape, hef, hname]
    exact hfinal
  rw [hok, hrange, herr, hscan.1, hscan.2]
  simp


/-- C2: on the buffer `<r><a></a><b><t></t></b></r>` the call `find("r/a/t", 0)` on a
new Builder succeeds and returns the range of the `t` inside `b`, although the
chain `r/a/t` belongs to no element of the document. -/
theorem find_returns_cousin :
    (Builder.find sampleLex (Builder.new bufCousin) "r/a/t".toList 0).ok = true ∧
    (Builder.find sampleLex (Builder.new bufCousin) "r/a/t".toList 0).range = some (12, 20) ∧
    split '/' (CleanPath "r/a/t".toList) ∉ Node.chains [] rootCousin ∧
    split '/' "r/b/t".toList ∈ Node.chains [] rootCousin := by
  decide

/-- C3: on the buffer `<r><t></t><t></t></r>` the calls `find("r/t", 0)` and then
`find("r/t", 1)` on one Builder return, for index `1`, the range `(0, 17)`; a new
Builder returns `(9, 17)` for the same index. -/
theorem find_sequential_differs :
    (Builder.find sampleLex
      (Builder.find sampleLex (Builder.new bufSiblings) "r/t".toList 0).builder
      "r/t".toList 1).range = some (0, 17) ∧
    (Builder.find sampleLex (Builder.new bufSiblings) "r/t".toList 1).range = some (9, 17) := by
  decide

/-- C4: after `find("r/t", 0)` on the buffer `<r><t></t><t></t></r>` and then
`setData` of `<r><u></u></r>`, the offset cache still holds its entry and
`find("r/t", 0)` returns the range cached for the old buffer, while a new Builder
over the new buffer fails. -/
theorem setData_keeps_cache :
    (((Builder.find sampleLex (Builder.new bufSiblings) "r/t".toList 0).builder.setData
      bufOther).mCache.nodes ≠ []) ∧
    (Builder.find sampleLex
      ((Builder.find sampleLex (Builder.new bufSiblings) "r/t".toList 0).builder.setData bufOther)
      "r/t".toList 0).range = some (2, 10) ∧
    (Builder.find sampleLex (Builder.new bufOther) "r/t".toList 0).ok = false ∧
    (Builder.new bufOther).mCache.nodes = [] := by
  decide

/-- C9 (as stated, refuted): the path `///` is not refused at once: the scanner
is reset and all eight tokens of the buffer are read. -/
theorem find_three_slashes_scans :
    (Builder.find sampleLex (Builder.new bufSiblings) "///".toList 0).builder.mReader.reads = 8 ∧
    (Builder.new bufSiblings).mReader.reads = 0 := by
  decide

/-- C9 (amended): for the paths `""`, `"/"` and `"//"`, which `CleanPath` empties,
`Builder::find` returns false at once and leaves the whole Builder, the reader
included, as it was. -/
theorem find_empty_path (lex : QByteArray → List Token) (b : Builder) (aPath : QString)
    (idx : Nat) (h : aPath = [] ∨ aPath = ['/'] ∨ aPath = ['/', '/']) :
    Builder.find lex b aPath idx = { ok := false, range := none, builder := b } := by
  apply find_empty
  rcases h with h | h | h <;> subst h <;> decide

/-- Witness for C9 (amended): the path `//` on a Builder over the sibling sample. -/
theorem find_empty_path_witness :
    Builder.find sampleLex (Builder.new bufSiblings) ['/', '/'] 3 =
      { ok := false, range := none, builder := Builder.new bufSiblings } :=
  find_empty_path sampleLex (Builder.new bufSiblings) ['/', '/'] 3 (Or.inr (Or.inr rfl))

theorem lookup_of_not_hasDomain {Doc : Type} (f : Factory Doc) (d : QString)
    (h : f.hasDomain d = false) : f.lookup d = none := by
  unfold Factory.hasDomain at h
  unfold Factory.lookup
  have : f.mBuilders.find? (fun p => p.1 == d) = none := by
    rw [List.find?_eq_none]
    intro x hx
    have := List.any_eq_false.1 h x hx
    simpa using this
  rw [this]; rfl

/-- C10: for a domain name that is not registered, `Factory::build` and
`Factory::find` return false, set the registry-level last error to
`"DomFactory::Factory: no such domain "` followed by the name, and leave the
map of registered domains (names, Builders and document caches) as it was. -/
theorem factory_unknown_domain {Doc : Type} (lex : QByteArray → List Token)
    (setContent : QByteArray → Except QString Doc) (f : Factory Doc) (d aPath : QString)
    (idx : Nat) (h : f.hasDomain d = false) :
    (Factory.build lex setContent f d aPath idx).ok = false ∧
    (Factory.build lex setContent f d aPath idx).factory.mLastErrorMessage = cNoDomain ++ d ∧
    (Factory.build lex setContent f d aPath idx).factory.mBuilders = f.mBuilders ∧
    (Factory.find lex f d aPath idx).ok = false ∧
    (Factory.find lex f d aPath idx).factory.mLastErrorMessage = cNoDomain ++ d ∧
    (Factory.find lex f d aPath idx).factory.mBuilders = f.mBuilders := by
  have hl := lookup_of_not_hasDomain f d h
  simp [Factory.build, Factory.find, hl]

/-- Witness for C10: the domain `B` in a registry that holds only `A`. -/
theorem factory_unknown_domain_witness :
    sampleFactory.hasDomain "B".toList = false ∧
    (Factory.build sampleLex sampleSetContent sampleFactory "B".toList "r/t".toList 0).ok
      = false :=
  ⟨by decide,
    (factory_unknown_domain sampleLex sampleSetContent sampleFactory "B".toList "r/t".toList 0
      (by decide)).1⟩

/-- Witness for C1: the second `t` of `<r><t></t><t></t></r>`. -/
theorem find_root_child_witness :
    sampleLex bufSiblings = documentTokens [Node.other 0 0] rootSiblings [Node.other 21 21] ∧
    (Builder.find sampleLex (Builder.new bufSiblings) ("r".toList ++ '/' :: "t".toList) 1).ok
      = true :=
  ⟨by decide,
    (find_root_child sampleLex bufSiblings "r".toList "t".toList [Node.other 0 0]
      [Node.other 21 21] [el "t" 6 [] 10, el "t" 13 [] 17] 3 3 21 21 1
      (by decide) (by decide) (by decide) (by decide) (by decide)).1 (by decide)⟩

/-- Witness for C5: `find("r/t", 0)` twice on the sibling sample. -/
theorem find_again_cached_witness :
    1 ≤ (Builder.new bufSiblings).mCache.mx ∧
    (Builder.find sampleLex (Builder.new bufSiblings) "r/t".toList 0).ok = true ∧
    (Builder.find sampleLex
      (Builder.find sampleLex (Builder.new bufSiblings) "r/t".toList 0).builder
      "r/t".toList 0).ok = true :=
  ⟨by decide, by decide,
    (find_again_cached sampleLex (Builder.new bufSiblings) "r/t".toList 0 (by decide)
      (by decide)).1⟩

/-- Witness for C6: the failing call `find("r/x", 0)` on the sibling sample. -/
theorem find_failure_keeps_cache_witness :
    (Builder.find sampleLex (Builder.new bufSiblings) "r/x".toList 0).ok = false ∧
    (Builder.find sampleLex (Builder.new bufSiblings) "r/x".toList 0).builder.mCache =
      (Builder.new bufSiblings).mCache :=
  ⟨by decide,
    find_failure_keeps_cache sampleLex (Builder.new bufSiblings) "r/x".toList 0 (by decide)⟩

/-- Witness for C7: the path `/r/missing` on the sibling sample. -/
theorem find_leaf_absent_witness :
    CleanPath "/r/missing".toList ≠ [] ∧
    (Builder.find sampleLex (Builder.new bufSiblings) "/r/missing".toList 7).ok = false :=
  ⟨by decide,
    (find_leaf_absent sampleLex bufSiblings "/r/missing".toList 7 (by decide) (by decide)).1⟩

/-- Witness for C8: the truncated buffer `<root><item>` with the path `/root/item`. -/
theorem find_unclosed_witness :
    sampleLex bufUnclosed = tokensUnclosed ∧
    closesAt "item".toList 0
      [{ type := TokenType.Other, name := [], characterOffset := 12, pos := 12 }] = false ∧
    (Builder.find sampleLex (Builder.new bufUnclosed) "/root/item".toList
      0).builder.mLastErrorMessage = cEndElementNotFound :=
  ⟨by decide, by decide,
    (find_unclosed sampleLex bufUnclosed "/root/item".toList 0
      [{ type := TokenType.Other, name := [], characterOffset := 0, pos := 0 },
       { type := TokenType.StartElement, name := "root".toList, characterOffset := 6, pos := 6 }]
      [{ type := TokenType.Other, name := [], characterOffset := 12, pos := 12 }]
      { type := TokenType.StartElement, name := "item".toList, characterOffset := 12, pos := 12 }
      "item".toList (by decide) (by decide) (by decide) (by decide) (by decide)
      (by decide)).2.2⟩

/-- C13: on `<r><t></t><t></t><t></t></r>`, after `find("r/t", 0)`, `find("r/t", 2)` and
`find("r/t", 0)` (answered from the cache), the call `find("r/t", 1)` misses the cache
and takes the sequential-read branch while the reader still stands after the third
`t`, not after the end tag of the element of index `0`; the call fails although a new
Builder resolves index `1`. -/
theorem sequential_after_cache_hit :
    ((Builder.find sampleLexMore
        (Builder.find sampleLexMore
          (Builder.find sampleLexMore (Builder.new bufTriple) "r/t".toList 0).builder
          "r/t".toList 2).builder
        "r/t".toList 0).builder.isSequential "r/t".toList 1 = true) ∧
    ((Builder.find sampleLexMore
        (Builder.find sampleLexMore
          (Builder.find sampleLexMore (Builder.new bufTriple) "r/t".toList 0).builder
          "r/t".toList 2).builder
        "r/t".toList 0).builder.checkCache ("r/t".toList ++ tagIndexText 1)).1 = none ∧
    (Builder.find sampleLexMore
        (Builder.find sampleLexMore
          (Builder.find sampleLexMore (Builder.new bufTriple) "r/t".toList 0).builder
          "r/t".toList 2).builder
        "r/t".toList 0).builder.mReader.pending =
      (Builder.find sampleLexMore (Builder.new bufTriple) "r/t".toList 2).builder.mReader.pending ∧
    (Builder.find sampleLexMore (Builder.new bufTriple) "r/t".toList 2).builder.mReader.pending ≠
      (Builder.find sampleLexMore (Builder.new bufTriple) "r/t".toList 0).builder.mReader.pending ∧
    (Builder.find sampleLexMore
      (Builder.find sampleLexMore
        (Builder.find sampleLexMore
          (Builder.find sampleLexMore (Builder.new bufTriple) "r/t".toList 0).builder
          "r/t".toList 2).builder
        "r/t".toList 0).builder
      "r/t".toList 1).ok = false ∧
    (Builder.find sampleLexMore (Builder.new bufTriple) "r/t".toList 1).range = some (9, 17) := by
  decide

/-- C14: on `<r><t></t><t></t></r>`, after the failed `find("r/t", 4294967295)` the call
`find("r/t", 0)` is taken as sequential (`0 - 1` wraps to `4294967295`): the reader is
not reset, no token is read and the call fails, although a new Builder resolves
index `0`. -/
theorem index_zero_after_last_index :
    (Builder.find sampleLex (Builder.new bufSiblings) "r/t".toList 4294967295).builder.isSequential
      "r/t".toList 0 = true ∧
    (Builder.find sampleLex
      (Builder.find sampleLex (Builder.new bufSiblings) "r/t".toList 4294967295).builder
      "r/t".toList 0).ok = false ∧
    (Builder.find sampleLex
      (Builder.find sampleLex (Builder.new bufSiblings) "r/t".toList 4294967295).builder
      "r/t".toList 0).builder.mReader =
      (Builder.find sampleLex (Builder.new bufSiblings) "r/t".toList 4294967295).builder.mReader ∧
    (Builder.find sampleLex (Builder.new bufSiblings) "r/t".toList 0).range = some (2, 10) := by
  decide

/-- C15 (as stated, refuted): on `<r><a></a><a><t></t></a></r>` the first `a` is empty, so
resolving `r/a/t` by first occurrences selects nothing, yet `find("r/a/t", 0)` on a new
Builder does not fail: it succeeds and returns the range `(12, 20)` of the `t` inside
the second `a`, which starts after the first `a` has ended (offset `10`). -/
theorem find_in_later_twin :
    rootTwins = el "r" 3 [el "a" 6 [] 10, el "a" 13 [el "t" 16 [] 20] 24] 28 ∧
    Node.resolveList ([Node.other 0 0] ++ rootTwins :: [Node.other 28 28])
      (split '/' (CleanPath "r/a/t".toList)) 0 0 = Outcome.undecided ∧
    sampleLexMore bufTwins = documentTokens [Node.other 0 0] rootTwins [Node.other 28 28] ∧
    (Builder.find sampleLexMore (Builder.new bufTwins) "r/a/t".toList 0).ok = true ∧
    (Builder.find sampleLexMore (Builder.new bufTwins) "r/a/t".toList 0).range = some (12, 20) :=
  ⟨rfl, by decide, by decide, by decide, by decide⟩

/-- C16: the tokenizer reports non-decreasing positions inside each buffer; after
`find("r/t", 0)` on `<r><t></t><t></t></r>` and `setData` of the four bytes `<r/>`, the
call `find("r/t", 0)` succeeds with the range `(2, 10)`, whose end lies beyond the
buffer. -/
theorem stale_range_outside_buffer :
    positionsWithin (bufSiblings.length : Int) 0 (sampleLexMore bufSiblings) = true ∧
    positionsWithin (bufShort.length : Int) 0 (sampleLexMore bufShort) = true ∧
    (Builder.find sampleLexMore
      ((Builder.find sampleLexMore (Builder.new bufSiblings) "r/t".toList 0).builder.setData
        bufShort) "r/t".toList 0).ok = true ∧
    (Builder.find sampleLexMore
      ((Builder.find sampleLexMore (Builder.new bufSiblings) "r/t".toList 0).builder.setData
        bufShort) "r/t".toList 0).range = some (2, 10) ∧
    ((Builder.find sampleLexMore
      ((Builder.find sampleLexMore (Builder.new bufSiblings) "r/t".toList 0).builder.setData
        bufShort) "r/t".toList 0).builder.mData.length : Int) < 10 := by
  decide

/-- C17: on a new Builder the call `find("/", 0)` returns false and leaves the last
error message empty. -/
theorem empty_path_leaves_no_error :
    (Builder.find sampleLex (Builder.new bufSiblings) "/".toList 0).ok = false ∧
    (Builder.find sampleLex (Builder.new bufSiblings) "/".toList 0).builder.mLastErrorMessage
      = [] := by
  decide

/-- C18: on `<r><t></t><t></t></r>`, `find("r/t", 1)` returns `(9, 17)`; after
`find("r/t", 0)` and `clearCache`, `find("r/t", 1)` scans again (through the
sequential-read branch) and returns `(0, 17)`. -/
theorem rescan_after_clearCache_differs :
    (Builder.find sampleLex (Builder.new bufSiblings) "r/t".toList 1).range = some (9, 17) ∧
    (Builder.find sampleLex
      (Builder.find sampleLex
        (Builder.find sampleLex (Builder.new bufSiblings) "r/t".toList 1).builder
        "r/t".toList 0).builder.clearCache
      "r/t".toList 1).range = some (0, 17) := by
  decide
theorem any_filter_self {β : Type} (l : List (QString × β)) (d : QString) :
    (l.filter (fun p => p.1 != d)).any (fun p => p.1 == d) = false := by
  induction l with
  | nil => rfl
  | cons x xs ih =>
    cases hb : (x.1 != d) with
    | false => simp only [List.filter_cons, hb, Bool.false_eq_true, if_false, ih]
    | true =>
      have hb2 : (x.1 == d) = false := by simpa [bne] using hb
      simp only [List.filter_cons, hb, if_true, List.any_cons, hb2, ih, Bool.or_false]

theorem any_filter_other {β : Type} (l : List (QString × β)) (d e : QString) (h : e ≠ d) :
    (l.filter (fun p => p.1 != d)).any (fun p => p.1 == e) = l.any (fun p => p.1 == e) := by
  induction l with
  | nil => rfl
  | cons x xs ih =>
    cases hb : (x.1 != d) with
    | false =>
      have hxd : x.1 = d := by simpa using hb
      have hxe : (x.1 == e) = false := by
        simp only [beq_eq_false_iff_ne, ne_eq, hxd]
        exact fun h2 => h h2.symm
      simp only [List.filter_cons, hb, Bool.false_eq_true, if_false, ih, List.any_cons, hxe,
        Bool.false_or]
    | true => simp only [List.filter_cons, hb, if_true, List.any_cons, ih]

theorem find_filter_other {β : Type} (l : List (QString × β)) (d e : QString) (h : e ≠ d) :
    (l.filter (fun p => p.1 != d)).find? (fun p => p.1 == e) = l.find? (fun p => p.1 == e) := by
  induction l with
  | nil => rfl
  | cons x xs ih =>
    cases hb : (x.1 != d) with
    | false =>
      have hxd : x.1 = d := by simpa using hb
      have hxe : (x.1 == e) = false := by
        simp only [beq_eq_false_iff_ne, ne_eq, hxd]
        exact fun h2 => h h2.symm
      simp only [List.filter_cons, hb, Bool.false_eq_true, if_false, ih, List.find?_cons, hxe]
    | true =>
      cases hxe : (x.1 == e) with
      | false => simp only [List.filter_cons, hb, if_true, List.find?_cons, hxe, ih]
      | true => simp only [List.filter_cons, hb, if_true, List.find?_cons, hxe]

/-- C11: `Factory::deleteData(d)` returns true exactly when `d` was registered;
afterwards `hasDomain(d)` is false; for every other name `e`, `hasDomain(e)` and the
Builder and document cache of `e` are as before; when `d` was not registered the
registry-level last error is the no-such-domain text followed by `d`. -/
theorem deleteData_effect {Doc : Type} (f : Factory Doc) (d : QString) :
    (f.deleteData d).1 = f.hasDomain d ∧
    (f.deleteData d).2.hasDomain d = false ∧
    (∀ e, e ≠ d →
      (f.deleteData d).2.hasDomain e = f.hasDomain e ∧
      (f.deleteData d).2.lookup e = f.lookup e) ∧
    (f.hasDomain d = false → (f.deleteData d).2.mLastErrorMessage = cNoDomain ++ d) := by
  have hdel : f.deleteData d =
      if f.hasDomain d then
        (true, { f with mBuilders := f.mBuilders.filter (fun p => p.1 != d) })
      else (false, { f with mLastErrorMessage := cNoDomain ++ d }) := rfl
  cases h : f.hasDomain d with
  | true =>
    rw [hdel, h, if_pos rfl]
    refine ⟨rfl, ?_, ?_, ?_⟩
    · exact any_filter_self f.mBuilders d
    · intro e he
      refine ⟨any_filter_other f.mBuilders d e he, ?_⟩
      show (List.find? (fun p => p.1 == e) (f.mBuilders.filter (fun p => p.1 != d))).map _ = _
      rw [find_filter_other f.mBuilders d e he]
      rfl
    · intro h2; exact absurd h2 (by simp)
  | false =>
    rw [hdel, h, if_neg (by simp)]
    exact ⟨rfl, h, fun e _ => ⟨rfl, rfl⟩, fun _ => rfl⟩

theorem lookup_store {Doc : Type} (f : Factory Doc) (d : QString)
    (pair : Builder × TDomDocumentCache Doc) : (f.store d pair).lookup d = some pair := by
  simp [Factory.store, Factory.lookup]

/-- C12: for a registered domain, with `key` the cleaned path followed by `[index]`:
on a hit of the document cache `Factory::build` returns true with the cached
document and the domain keeps its Builder; on a miss it returns true exactly when
`Builder::build` returns a non-negative cost, in which case the cost is `end - start`
of the range `Builder::find` resolved and the domain holds the Builder after the
call and the cache after `insert(key, document, cost)`; when `Builder::build`
returns a negative cost (`-1`) it returns false and the document cache is as
before. -/
theorem factory_build_effect {Doc : Type} (lex : QByteArray → List Token)
    (setContent : QByteArray → Except QString Doc) (f : Factory Doc) (d aPath : QString)
    (idx : Nat) (pair : Builder × TDomDocumentCache Doc) (hreg : f.lookup d = some pair) :
    (∀ doc, (pair.2.object (CleanPath aPath ++ tagIndexText idx)).1 = some doc →
      (Factory.build lex setContent f d aPath idx).ok = true ∧
      (Factory.build lex setContent f d aPath idx).document = some doc ∧
      ((Factory.build lex setContent f d aPath idx).factory.lookup d).map Prod.fst =
        some pair.1) ∧
    ((pair.2.object (CleanPath aPath ++ tagIndexText idx)).1 = none →
      ((Factory.build lex setContent f d aPath idx).ok = true ↔
        0 ≤ (pair.1.build lex setContent (CleanPath aPath) idx).cost) ∧
      (0 ≤ (pair.1.build lex setContent (CleanPath aPath) idx).cost →
        ∃ s e doc,
          (pair.1.find lex (CleanPath aPath) idx).range = some (s, e) ∧
          (pair.1.build lex setContent (CleanPath aPath) idx).cost = e - s ∧
          (Factory.build lex setContent f d aPath idx).document = some doc ∧
          (Factory.build lex setContent f d aPath idx).factory.lookup d =
            some ((pair.1.build lex setContent (CleanPath aPath) idx).builder,
              pair.2.insert (CleanPath aPath ++ tagIndexText idx) doc (e - s))) ∧
      ((pair.1.build lex setContent (CleanPath aPath) idx).cost < 0 →
        (Factory.build lex setContent f d aPath idx).ok = false ∧
        ((Factory.build lex setContent f d aPath idx).factory.lookup d).map Prod.snd =
          some pair.2)) := by
  refine ⟨?_, ?_⟩
  · intro doc hhit
    simp [Factory.build, hreg, hhit, lookup_store]
  · intro hmiss
    have hc := object_miss _ _ hmiss
    simp only [Factory.build, hreg, hmiss, hc]
    unfold Builder.build
    cases hf : pair.1.find lex (CleanPath aPath) idx with
    | mk ok range b1 =>
      cases ok with
      | false => simp [lookup_store]
      | true =>
        cases range with
        | none => simp [lookup_store]
        | some se =>
          obtain ⟨s, e⟩ := se
          simp only []
          cases hs : setContent (Builder.view b1.mData s e) with
          | error msg => simp [lookup_store]
          | ok doc =>
            simp only [ge_iff_le]
            by_cases hcost : 0 ≤ e - s
            · simp only [hcost, lookup_store]
              simp only [if_true, true_iff, forall_true_left, Option.some.injEq,
                Prod.mk.injEq, Option.map_some']
              exact ⟨trivial, ⟨s, e, doc, ⟨rfl, rfl⟩, rfl, rfl, lookup_store _ _ _⟩,
                fun h => absurd hcost (by omega)⟩
            · simp [hcost, lookup_store]

/-- Witness for C12: the domain `A` of the sample registry, path `r/t`, index `0`. -/
theorem factory_build_effect_witness :
    sampleFactory.lookup "A".toList =
      some (Builder.new bufSiblings, QCache.empty (cDefaultFactoryCacheSize : Int)) ∧
    (Factory.build sampleLex sampleSetContent sampleFactory "A".toList "r/t".toList 0).ok = true :=
  ⟨by decide,
    ((factory_build_effect sampleLex sampleSetContent sampleFactory "A".toList "r/t".toList 0
      (Builder.new bufSiblings, QCache.empty (cDefaultFactoryCacheSize : Int))
      (by decide)).2 (by decide)).1.2 (by decide)⟩
theorem scanStep_tags (s : ScanState) (t : Token) :
    (scanStep s t).tags = s.tags ∨
      (2 ≤ s.tags.length ∧ (scanStep s t).tags = s.tags.tail) := by
  obtain ⟨lv, gl, c, tags, sf, ef, so, eo, lo⟩ := s
  obtain ⟨ty, n, o, p⟩ := t
  cases ty
  · simp only [scanStep, onStartElement]
    split_ifs with h1 h2 h3
    · exact Or.inl rfl
    · exact Or.inl rfl
    · right
      have h1b : (sf = false ∧ tags.head? = some n) ∧ lv = gl := by simpa using h1
      have hlen : tags.length ≠ 1 := by simpa using h2
      refine ⟨?_, rfl⟩
      show 2 ≤ tags.length
      cases tags with
      | nil => simp at h1b
      | cons x xs =>
        cases xs with
        | nil => simp at hlen
        | cons y ys => simp
    · exact Or.inl rfl
  · simp only [scanStep, onEndElement]
    split_ifs <;> exact Or.inl rfl
  · exact Or.inl rfl

theorem scanStep_tags_ne_nil (s : ScanState) (t : Token) (h : s.tags ≠ []) :
    (scanStep s t).tags ≠ [] := by
  rcases scanStep_tags s t with h1 | ⟨h2, h3⟩
  · rw [h1]; exact h
  · rw [h3]
    intro h4
    have : s.tags.tail.length = s.tags.length - 1 := List.length_tail _
    rw [h4] at this
    simp at this
    omega

theorem foldl_tags_ne_nil : ∀ (pre : List Token) (s : ScanState), s.tags ≠ [] →
    (pre.foldl scanStep s).tags ≠ []
  | [], _, h => h
  | t :: ts, s, h => foldl_tags_ne_nil ts (scanStep s t) (scanStep_tags_ne_nil s t h)

/-- C20: in both scan modes of `Builder::find` (a fresh scan, whose queue is the
split path, and a sequential scan, whose queue is the leaf name alone), for every
path, sibling index and token stream, the queue `tags` is non-empty at the entry
of every loop iteration, that is after any number of tokens `pre` has been
processed; one loop iteration leaves the queue as it is or pops its first
segment, and it pops only when at least two segments remain. -/
theorem tags_never_empty (aPath : QString) (idx : Nat) (pre : List Token) :
    (pre.foldl scanStep (scanInit (split '/' aPath) idx)).tags ≠ [] ∧
    (pre.foldl scanStep
      (scanInit [right aPath ((aPath.length : Int) - lastIndexOf '/' aPath - 1)] 0)).tags ≠ [] ∧
    (∀ (s : ScanState) (t : Token), (scanStep s t).tags = s.tags ∨
      (2 ≤ s.tags.length ∧ (scanStep s t).tags = s.tags.tail)) :=
  ⟨foldl_tags_ne_nil pre _ (split_ne_nil '/' aPath),
   foldl_tags_ne_nil pre _ (by simp [scanInit]),
   scanStep_tags⟩

theorem pair_step (lv gl : Int) (m : Nat) (tags : List QString) (so eo lo so2 eo2 : Int)
    (ty : TokenType) (n : QString) (o p : Int) :
    (∃ lv2 gl2 m2 tags2,
      scanStep ⟨lv, gl, m, tags, false, false, so, eo, lo⟩ ⟨ty, n, o, p⟩ =
        ⟨lv2, gl2, m2, tags2, false, false, so, eo, o - 1⟩ ∧
      scanStep ⟨lv, gl, m + 1, tags, false, false, so2, eo2, lo⟩ ⟨ty, n, o, p⟩ =
        ⟨lv2, gl2, m2 + 1, tags2, false, false, so2, eo2, o - 1⟩) ∨
    (ty = StartElement ∧
      scanStep ⟨lv, gl, m, tags, false, false, so, eo, lo⟩ ⟨ty, n, o, p⟩ =
        ⟨lv + 1, lv + 1, 0, [n], true, false, lo, eo, o - 1⟩ ∧
      scanStep ⟨lv, gl, m + 1, tags, false, false, so2, eo2, lo⟩ ⟨ty, n, o, p⟩ =
        ⟨lv, lv + 1, 0, [n], false, false, so2, eo2, o - 1⟩) := by
  cases ty
  · by_cases hg : tags.head? = some n ∧ lv = gl
    · obtain ⟨hh, hl⟩ := hg
      subst hl
      by_cases hlen : tags.length = 1
      · obtain ⟨x, rfl⟩ := List.length_eq_one.1 hlen
        have hx : x = n := by simpa using hh
        subst hx
        cases m with
        | zero =>
          right
          exact ⟨rfl, by simp [scanStep, onStartElement], by simp [scanStep, onStartElement]⟩
        | succ m' =>
          left
          exact ⟨lv, lv + 1, m', [x], by simp [scanStep, onStartElement],
            by simp [scanStep, onStartElement]⟩
      · left
        exact ⟨lv + 1, lv + 1, m, tags.tail, by simp [scanStep, onStartElement, hh, hlen],
          by simp [scanStep, onStartElement, hh, hlen]⟩
    · left
      have hg2 : tags.head? ≠ some n ∨ lv ≠ gl := by
        by_cases h1 : tags.head? = some n
        · right; exact fun h2 => hg ⟨h1, h2⟩
        · left; exact h1
      exact ⟨lv, gl + 1, m, tags, step_start_skip _ _ _ _ _ _ _ _ _ _ _ _ (Or.inr hg2),
        step_start_skip _ _ _ _ _ _ _ _ _ _ _ _ (Or.inr hg2)⟩
  · left
    exact ⟨lv, gl - 1, m, tags, step_end_skip _ _ _ _ _ _ _ _ _ _ _ _ (Or.inl rfl),
      step_end_skip _ _ _ _ _ _ _ _ _ _ _ _ (Or.inl rfl)⟩
  · left
    exact ⟨lv, gl, m, tags, step_other _ _ _ _ _ _ _ _ _ _ _ _,
      step_other _ _ _ _ _ _ _ _ _ _ _ _⟩

mutual
theorem pair_node : ∀ (n : Node) (lv gl : Int) (m : Nat) (tags : List QString)
    (so eo lo so2 eo2 : Int) (rest : List Token),
    (∃ d leaf soF eoF loF suffix,
      scanLoop ⟨lv, gl, m, tags, false, false, so, eo, lo⟩ (n.tokens ++ rest) =
        (⟨d + 1, d, 0, [leaf], true, true, soF, eoF, loF⟩, suffix ++ rest) ∧
      scanLoop ⟨lv, gl, m + 1, tags, false, false, so2, eo2, lo⟩ (n.tokens ++ rest) =
        scanLoop ⟨d, d, 0, [leaf], false, false, so2, eo2, loF⟩ (suffix ++ rest)) ∨
    (∃ lv2 gl2 m2 tags2 lo2,
      scanLoop ⟨lv, gl, m, tags, false, false, so, eo, lo⟩ (n.tokens ++ rest) =
        scanLoop ⟨lv2, gl2, m2, tags2, false, false, so, eo, lo2⟩ rest ∧
      scanLoop ⟨lv, gl, m + 1, tags, false, false, so2, eo2, lo⟩ (n.tokens ++ rest) =
        scanLoop ⟨lv2, gl2, m2 + 1, tags2, false, false, so2, eo2, lo2⟩ rest)
  | Node.element name oo op kids co cp, lv, gl, m, tags, so, eo, lo, so2, eo2, rest => by
    simp only [Node.tokens, List.cons_append, List.append_assoc, List.singleton_append,
      List.nil_append]
    rw [scanLoop_cons _ _ _ rfl, scanLoop_cons _ _ _ rfl]
    rcases pair_step lv gl m tags so eo lo so2 eo2 StartElement name oo op with
      ⟨lv2, gl2, m2, tags2, h1, h2⟩ | ⟨_, h1, h2⟩
    · rw [h1, h2]
      rcases pair_list kids lv2 gl2 m2 tags2 so eo (oo - 1) so2 eo2
          ({ type := EndElement, name := name, characterOffset := co, pos := cp } :: rest) with
        ⟨d, leaf, soF, eoF, loF, suffix, k1, k2⟩ | ⟨lv3, gl3, m3, tags3, lo3, k1, k2⟩
      · left
        refine ⟨d, leaf, soF, eoF, loF,
          suffix ++ [{ type := EndElement, name := name, characterOffset := co, pos := cp }],
          ?_, ?_⟩
        · rw [k1]; simp
        · rw [k2]; simp
      · right
        rw [k1, k2, scanLoop_cons _ _ _ rfl, scanLoop_cons _ _ _ rfl]
        rcases pair_step lv3 gl3 m3 tags3 so eo lo3 so2 eo2 EndElement name co cp with
          ⟨lv4, gl4, m4, tags4, e1, e2⟩ | ⟨hty, _, _⟩
        · rw [e1, e2]
          exact ⟨lv4, gl4, m4, tags4, co - 1, rfl, rfl⟩
        · exact absurd hty (by decide)
    · left
      rw [h1, h2,
        skip_list kids (lv + 1) (lv + 1) 0 [name] true lo eo _ _ (Or.inr ⟨rfl, le_refl _⟩),
        skip_list kids lv (lv + 1) 0 [name] false so2 eo2 _ _ (Or.inl (by omega)),
        scanLoop_cons _ _ _ rfl, step_end_hit, scanLoop_done _ _ rfl,
        scanLoop_cons _ _ _ rfl, step_end_skip _ _ _ _ _ _ _ _ _ _ _ _ (Or.inl rfl),
        show lv + 1 - 1 = lv by omega]
      exact ⟨lv, name, lo, cp, co - 1, [], rfl, rfl⟩
  | Node.other o p, lv, gl, m, tags, so, eo, lo, so2, eo2, rest => by
    right
    simp only [Node.tokens, List.singleton_append]
    rw [scanLoop_cons _ _ _ rfl, scanLoop_cons _ _ _ rfl, step_other, step_other]
    exact ⟨lv, gl, m, tags, o - 1, rfl, rfl⟩
theorem pair_list : ∀ (ns : List Node) (lv gl : Int) (m : Nat) (tags : List QString)
    (so eo lo so2 eo2 : Int) (rest : List Token),
    (∃ d leaf soF eoF loF suffix,
      scanLoop ⟨lv, gl, m, tags, false, false, so, eo, lo⟩ (Node.tokensOfList ns ++ rest) =
        (⟨d + 1, d, 0, [leaf], true, true, soF, eoF, loF⟩, suffix ++ rest) ∧
      scanLoop ⟨lv, gl, m + 1, tags, false, false, so2, eo2, lo⟩
          (Node.tokensOfList ns ++ rest) =
        scanLoop ⟨d, d, 0, [leaf], false, false, so2, eo2, loF⟩ (suffix ++ rest)) ∨
    (∃ lv2 gl2 m2 tags2 lo2,
      scanLoop ⟨lv, gl, m, tags, false, false, so, eo, lo⟩ (Node.tokensOfList ns ++ rest) =
        scanLoop ⟨lv2, gl2, m2, tags2, false, false, so, eo, lo2⟩ rest ∧
      scanLoop ⟨lv, gl, m + 1, tags, false, false, so2, eo2, lo⟩
          (Node.tokensOfList ns ++ rest) =
        scanLoop ⟨lv2, gl2, m2 + 1, tags2, false, false, so2, eo2, lo2⟩ rest)
  | [], lv, gl, m, tags, so, eo, lo, so2, eo2, rest => by
    right
    exact ⟨lv, gl, m, tags, lo, by simp [Node.tokensOfList], by simp [Node.tokensOfList]⟩
  | n :: ns, lv, gl, m, tags, so, eo, lo, so2, eo2, rest => by
    simp only [Node.tokensOfList, List.append_assoc]
    rcases pair_node n lv gl m tags so eo lo so2 eo2 (Node.tokensOfList ns ++ rest) with
      ⟨d, leaf, soF, eoF, loF, suffix, k1, k2⟩ | ⟨lv2, gl2, m2, tags2, lo2, k1, k2⟩
    · left
      refine ⟨d, leaf, soF, eoF, loF, suffix ++ Node.tokensOfList ns, ?_, ?_⟩
      · rw [k1]; simp
      · rw [k2]; simp
    · rw [k1, k2]
      exact pair_list ns lv2 gl2 m2 tags2 so eo lo2 so2 eo2 rest
end
theorem control_step (s1 s2 : ScanState) (t : Token) (h : control s1 = control s2) :
    control (scanStep s1 t) = control (scanStep s2 t) := by
  obtain ⟨lv, gl, c, tags, sf, ef, so, eo, lo⟩ := s1
  obtain ⟨lv2, gl2, c2, tags2, sf2, ef2, so2, eo2, lo2⟩ := s2
  obtain ⟨ty, n, o, p⟩ := t
  simp only [control, Prod.mk.injEq] at h
  obtain ⟨hd, rfl, rfl, rfl, rfl⟩ := h
  have hg : (lv == gl) = (lv2 == gl2) := by
    by_cases h1 : lv = gl
    · have h2 : lv2 = gl2 := by omega
      simp [h1, h2]
    · have h2 : lv2 ≠ gl2 := by omega
      simp [h1, h2]
  cases ty
  · simp only [scanStep, onStartElement, hg]
    split_ifs <;> simp only [control, Prod.mk.injEq, and_true, true_and] <;> omega
  · simp only [scanStep, onEndElement, hg]
    split_ifs <;> simp only [control, Prod.mk.injEq, and_true, true_and] <;> omega
  · simp only [scanStep, control, Prod.mk.injEq, and_true]
    exact hd

theorem control_loop : ∀ (toks : List Token) (s1 s2 : ScanState), control s1 = control s2 →
    (scanLoop s1 toks).2 = (scanLoop s2 toks).2 ∧
      control (scanLoop s1 toks).1 = control (scanLoop s2 toks).1
  | [], _, _, h => ⟨rfl, h⟩
  | t :: ts, s1, s2, h => by
    have he : s1.endFound = s2.endFound := by
      simp only [control, Prod.mk.injEq] at h
      exact h.2.2.2.2
    cases h1 : s1.endFound with
    | true =>
      rw [scanLoop_done _ _ h1, scanLoop_done _ _ (he ▸ h1)]
      exact ⟨rfl, h⟩
    | false =>
      rw [scanLoop_cons _ _ _ h1, scanLoop_cons _ _ _ (he ▸ h1)]
      exact control_loop ts _ _ (control_step s1 s2 t h)

theorem scanLoop_length_le : ∀ (toks : List Token) (s : ScanState),
    (scanLoop s toks).2.length ≤ toks.length
  | [], _ => by simp [scanLoop]
  | t :: ts, s => by
    unfold scanLoop
    split_ifs
    · exact le_refl _
    · have := scanLoop_length_le ts (scanStep s t)
      simp only [List.length_cons]
      omega

theorem scanLoop_length_lt (toks : List Token) (s : ScanState) (h0 : s.startFound = false)
    (h1 : (scanLoop s toks).1.startFound = true) :
    (scanLoop s toks).2.length < toks.length := by
  cases toks with
  | nil => simp [scanLoop, h0] at h1
  | cons t ts =>
    cases he : s.endFound with
    | true => rw [scanLoop_done _ _ he, h0] at h1; simp at h1
    | false =>
      rw [scanLoop_cons _ _ _ he]
      have := scanLoop_length_le ts (scanStep s t)
      simp only [List.length_cons]
      omega

theorem scanLoop_getLast (leaf : QString) : ∀ (toks : List Token) (s : ScanState),
    s.tags.getLast? = some leaf → (scanLoop s toks).1.tags.getLast? = some leaf
  | [], _, h => by simpa [scanLoop] using h
  | t :: ts, s, h => by
    unfold scanLoop
    split_ifs
    · exact h
    · exact scanLoop_getLast leaf ts _ (scanStep_getLast leaf s t h)

theorem split_length_sep (sep : Char) (y : QString) : ∀ (x : QString),
    2 ≤ (split sep (x ++ sep :: y)).length
  | [] => by
    have := split_ne_nil sep y
    simp only [List.nil_append, split, if_true, List.length_cons]
    have : 0 < (split sep y).length := List.length_pos.2 this
    omega
  | c :: cs => by
    have ih := split_length_sep sep y cs
    simp only [List.cons_append, split, List.append_eq]
    split_ifs
    · simp only [List.length_cons]; omega
    · cases hs : split sep (cs ++ sep :: y) with
      | nil => rw [hs] at ih; simp at ih
      | cons w ws =>
        rw [hs] at ih
        simp only [List.length_cons] at ih ⊢
        exact ih

theorem split_getLast_sep (sep : Char) (y : QString) : ∀ (x : QString),
    (split sep (x ++ sep :: y)).getLast? = (split sep y).getLast?
  | [] => by
    obtain ⟨w, ws, hw⟩ := List.exists_cons_of_ne_nil (split_ne_nil sep y)
    simp only [List.nil_append, split, if_true, hw, List.getLast?_cons_cons]
  | c :: cs => by
    have ih := split_getLast_sep sep y cs
    have hl := split_length_sep sep y cs
    simp only [List.cons_append, split, List.append_eq]
    split_ifs
    · cases hs : split sep (cs ++ sep :: y) with
      | nil => rw [hs] at hl; simp at hl
      | cons w ws => rw [hs] at ih; rw [List.getLast?_cons_cons]; exact ih
    · cases hs : split sep (cs ++ sep :: y) with
      | nil => rw [hs] at hl; simp at hl
      | cons w ws =>
        rw [hs] at ih hl
        cases ws with
        | nil => simp at hl
        | cons w2 ws2 =>
          simp only [List.getLast?_cons_cons] at ih ⊢
          exact ih

theorem indexOf?_cases (ch : Char) : ∀ (l : QString),
    (l.indexOf? ch = none ∧ ch ∉ l) ∨
      (∃ a b, l = a ++ ch :: b ∧ ch ∉ a ∧ l.indexOf? ch = some a.length)
  | [] => Or.inl ⟨rfl, by simp⟩
  | c :: cs => by
    by_cases hc : c = ch
    · right
      subst hc
      exact ⟨[], cs, rfl, by simp, by simp [List.indexOf?, List.findIdx?_cons]⟩
    · have hb : (c == ch) = false := by simpa using hc
      rcases indexOf?_cases ch cs with ⟨h1, h2⟩ | ⟨a, b, h1, h2, h3⟩
      · left
        refine ⟨?_, by simp [h2, Ne.symm hc]⟩
        simp only [List.indexOf?] at h1 ⊢
        rw [List.findIdx?_cons, hb, List.findIdx?_succ, h1]
        rfl
      · right
        refine ⟨c :: a, b, by simp [h1], by simp [h2, Ne.symm hc], ?_⟩
        simp only [List.indexOf?] at h3 ⊢
        rw [List.findIdx?_cons, hb, List.findIdx?_succ, h3]
        rfl

theorem right_leaf (p : QString) :
    (split '/' p).getLast? = some (right p ((p.length : Int) - lastIndexOf '/' p - 1)) := by
  rcases indexOf?_cases '/' p.reverse with ⟨h1, h2⟩ | ⟨a, b, h1, h2, h3⟩
  · have hno : '/' ∉ p := by simpa using h2
    rw [split_noSep '/' p hno]
    simp [lastIndexOf, h1, right]
  · have hp : p = b.reverse ++ '/' :: a.reverse := by
      have := congrArg List.reverse h1
      simpa using this
    have hno : '/' ∉ a.reverse := by simpa using h2
    have hlen : p.length = b.length + 1 + a.length := by
      rw [hp]; simp; omega
    have hr : right p ((p.length : Int) - lastIndexOf '/' p - 1) = a.reverse := by
      simp only [lastIndexOf, h3, right]
      have e1 : ((p.length : Int) - ((p.length : Int) - 1 - (a.length : Int)) - 1).toNat
          = a.length := by omega
      rw [e1, hp]
      have e2 : (b.reverse ++ '/' :: a.reverse).length - a.length = (b.reverse ++ ['/']).length := by
        simp; omega
      rw [e2, show b.reverse ++ '/' :: a.reverse = (b.reverse ++ ['/']) ++ a.reverse by simp,
        List.drop_left]
    rw [hr, hp, split_getLast_sep '/' a.reverse b.reverse, split_noSep '/' _ hno]
    rfl
theorem find_new_reader (lex : QByteArray → List Token) (data : QByteArray) (aPath : QString)
    (idx : Nat) (hp : CleanPath aPath ≠ []) :
    (Builder.find lex (Builder.new data) aPath idx).builder.mReader =
      ⟨(scanLoop (scanInit (split '/' (CleanPath aPath)) idx) (lex data)).2,
        (lex data).length -
          (scanLoop (scanInit (split '/' (CleanPath aPath)) idx) (lex data)).2.length⟩ ∧
    (Builder.find lex (Builder.new data) aPath idx).builder.mData = data ∧
    (Builder.find lex (Builder.new data) aPath idx).builder.mLastPath = CleanPath aPath ∧
    (Builder.find lex (Builder.new data) aPath idx).builder.mLastLeafTagIndex = idx := by
  have hseq : Builder.isSequential ⟨data, ⟨[], 0⟩, ⟨50, []⟩, [], [], 0⟩ (CleanPath aPath) idx
      = false := by
    simp [Builder.isSequential, hp]
  have hm : ((⟨data, ⟨[], 0⟩, ⟨50, []⟩, [], [], 0⟩ : Builder).mCache.object
      (CleanPath aPath ++ tagIndexText idx)).1 = none := rfl
  rw [Builder.new_eq, find_miss lex _ aPath idx hp hm]
  simp [Builder.scan, hseq]

theorem find_frame (lex : QByteArray → List Token) (b : Builder) (aPath : QString) (idx : Nat)
    (hp : CleanPath aPath ≠ []) :
    (Builder.find lex b aPath idx).builder.mData = b.mData ∧
    (Builder.find lex b aPath idx).builder.mLastPath = CleanPath aPath ∧
    (Builder.find lex b aPath idx).builder.mLastLeafTagIndex = idx ∧
    ((Builder.find lex b aPath idx).builder.mReader = b.mReader ∨
      (Builder.find lex b aPath idx).builder.mReader = (b.scan lex (CleanPath aPath) idx).2) := by
  cases hh : (b.mCache.object (CleanPath aPath ++ tagIndexText idx)).1 with
  | some item =>
    rw [find_hit lex b aPath idx item hp hh]
    exact ⟨rfl, rfl, rfl, Or.inl rfl⟩
  | none =>
    rw [find_miss lex b aPath idx hp hh]
    exact ⟨rfl, rfl, rfl, Or.inr rfl⟩

theorem cold_next (toks : List Token) (forest : List Node) (p : QString) (c : Nat)
    (hT : toks = Node.tokensOfList forest)
    (hs : (scanLoop (scanInit (split '/' p) c) toks).1.startFound = true) :
    (scanLoop (scanInit (split '/' p) (c + 1)) toks).2 =
      (scanLoop (scanInit [right p ((p.length : Int) - lastIndexOf '/' p - 1)] 0)
        (scanLoop (scanInit (split '/' p) c) toks).2).2 := by
  subst hT
  have hleaf := scanLoop_getLast _ (Node.tokensOfList forest) (scanInit (split '/' p) c)
    (right_leaf p)
  rcases pair_list forest 0 0 c (split '/' p) 0 0 0 0 0 [] with
    ⟨d, leaf, soF, eoF, loF, suffix, k1, k2⟩ | ⟨lv2, gl2, m2, tags2, lo2, k1, _⟩
  · simp only [List.append_nil] at k1 k2
    have e1 : scanInit (split '/' p) c = ⟨0, 0, c, split '/' p, false, false, 0, 0, 0⟩ := rfl
    have e2 : scanInit (split '/' p) (c + 1) =
        ⟨0, 0, c + 1, split '/' p, false, false, 0, 0, 0⟩ := rfl
    rw [e1] at hleaf
    rw [e1, e2, k1, k2]
    rw [k1] at hleaf
    have hl : leaf = right p ((p.length : Int) - lastIndexOf '/' p - 1) := by
      simpa using hleaf
    rw [← hl]
    exact (control_loop suffix _ _ (by simp [control, scanInit])).1
  · exfalso
    simp only [List.append_nil] at k1
    have e1 : scanInit (split '/' p) c = ⟨0, 0, c, split '/' p, false, false, 0, 0, 0⟩ := rfl
    rw [e1, k1] at hs
    simp [scanLoop] at hs

theorem sequential_invariant (lex : QByteArray → List Token) (data : QByteArray)
    (aPath : QString) (forest : List Node) (hlex : lex data = Node.tokensOfList forest)
    (hp : CleanPath aPath ≠ []) :
    ∀ (k : Nat), k < uintRange →
    (∀ i, i ≤ k →
      (scanLoop (scanInit (split '/' (CleanPath aPath)) i) (lex data)).1.startFound = true) →
    (findUpTo lex (Builder.new data) aPath k).mData = data ∧
    (findUpTo lex (Builder.new data) aPath k).mLastPath = CleanPath aPath ∧
    (findUpTo lex (Builder.new data) aPath k).mLastLeafTagIndex = k ∧
    ∃ m, m ≤ k ∧ (findUpTo lex (Builder.new data) aPath k).mReader =
      ⟨(scanLoop (scanInit (split '/' (CleanPath aPath)) m) (lex data)).2,
        (lex data).length -
          (scanLoop (scanInit (split '/' (CleanPath aPath)) m) (lex data)).2.length⟩
  | 0, _, _ => by
    obtain ⟨h1, h2, h3, h4⟩ := find_new_reader lex data aPath 0 hp
    exact ⟨h2, h3, h4, 0, le_refl _, h1⟩
  | k + 1, hk, hall => by
    obtain ⟨i1, i2, i3, m, hm, i4⟩ :=
      sequential_invariant lex data aPath forest hlex hp k (by omega)
        (fun i hi => hall i (by omega))
    obtain ⟨f1, f2, f3, f4⟩ :=
      find_frame lex (findUpTo lex (Builder.new data) aPath k) aPath (k + 1) hp
    refine ⟨by rw [findUpTo, f1, i1], by rw [findUpTo, f2], by rw [findUpTo, f3], ?_⟩
    rcases f4 with f4 | f4
    · exact ⟨m, by omega, by rw [findUpTo, f4, i4]⟩
    · refine ⟨m + 1, by omega, ?_⟩
      have hseq : (findUpTo lex (Builder.new data) aPath k).isSequential (CleanPath aPath)
          (k + 1) = true := by
        simp only [Builder.isSequential, i2, i3, beq_self_eq_true, Bool.true_and, beq_iff_eq,
          uintRange] at hk ⊢
        omega
      have hnext := cold_next (lex data) forest (CleanPath aPath) m hlex (hall m (by omega))
      have hle1 := scanLoop_length_le (lex data)
        (scanInit (split '/' (CleanPath aPath)) m)
      have hle2 := scanLoop_length_le
        (scanLoop (scanInit (split '/' (CleanPath aPath)) m) (lex data)).2
        (scanInit [right (CleanPath aPath)
          (((CleanPath aPath).length : Int) - lastIndexOf '/' (CleanPath aPath) - 1)] 0)
      rw [findUpTo, f4]
      simp only [Builder.scan, hseq, if_true, i4]
      rw [hnext]
      simp only [QXmlStreamReader.mk.injEq, true_and]
      omega
theorem documentTokens_eq (prolog : List Node) (root : Node) (epilog : List Node) :
    documentTokens prolog root epilog = Node.tokensOfList (prolog ++ root :: epilog) := by
  simp [documentTokens, tokensOfList_append, Node.tokensOfList]

theorem rest_antitone (toks : List Token) (forest : List Node) (p : QString)
    (hT : toks = Node.tokensOfList forest) :
    ∀ (k m : Nat), m ≤ k →
    (∀ i, i ≤ k → (scanLoop (scanInit (split '/' p) i) toks).1.startFound = true) →
    (scanLoop (scanInit (split '/' p) k) toks).2.length ≤
      (scanLoop (scanInit (split '/' p) m) toks).2.length
  | 0, m, hm, _ => by
    have : m = 0 := by omega
    subst this
    exact le_refl _
  | k + 1, m, hm, hall => by
    by_cases hmk : m = k + 1
    · subst hmk; exact le_refl _
    · have ih := rest_antitone toks forest p hT k m (by omega) (fun i hi => hall i (by omega))
      have hnext := cold_next toks forest p k hT (hall k (by omega))
      have hle := scanLoop_length_le (scanLoop (scanInit (split '/' p) k) toks).2
        (scanInit [right p ((p.length : Int) - lastIndexOf '/' p - 1)] 0)
      rw [hnext]
      omega

theorem coldReads_ge_first (lex : QByteArray → List Token) (data : QByteArray)
    (aPath : QString) : ∀ (k : Nat),
    (Builder.find lex (Builder.new data) aPath 0).builder.mReader.reads ≤
      coldReads lex data aPath k
  | 0 => le_refl _
  | k + 1 => by
    have := coldReads_ge_first lex data aPath k
    simp only [coldReads]
    omega

/-- C19 (as stated, refuted at `k = 0`): with the single index `0` the sequential
run and the independent run are the same call and read the same number of
tokens, four on `<r><t></t><t></t></r>`, so the first total is not smaller. -/
theorem single_find_reads_equal :
    (Builder.find sampleLex (Builder.new bufSiblings) "r/t".toList 0).ok = true ∧
    sequentialReads sampleLex bufSiblings "r/t".toList 0 = 4 ∧
    coldReads sampleLex bufSiblings "r/t".toList 0 = 4 := by
  decide

/-- C19 (amended): on a well-formed document, for every path and every `k` from `1`
on (a 32-bit index) such that `find` on a new Builder succeeds for each of the
indices `0, ..., k`, the calls `find` for the indices `0, 1, ..., k` made in this order
on one new Builder read strictly fewer tokens in total than the same `k + 1` calls
made each on a new Builder of its own. -/
theorem sequential_reads_fewer (lex : QByteArray → List Token) (data : QByteArray)
    (aPath : QString) (prolog : List Node) (root : Node) (epilog : List Node) (k : Nat)
    (hlex : lex data = documentTokens prolog root epilog)
    (hk : 1 ≤ k) (hk32 : k < uintRange)
    (hall : ∀ i, i ≤ k → (Builder.find lex (Builder.new data) aPath i).ok = true) :
    sequentialReads lex data aPath k < coldReads lex data aPath k := by
  have hp : CleanPath aPath ≠ [] := by
    intro h
    have := hall 0 (Nat.zero_le _)
    rw [find_empty lex _ aPath 0 h] at this
    simp at this
  have hT : lex data = Node.tokensOfList (prolog ++ root :: epilog) := by
    rw [hlex, documentTokens_eq]
  have hsf : ∀ i, i ≤ k →
      (scanLoop (scanInit (split '/' (CleanPath aPath)) i) (lex data)).1.startFound = true := by
    intro i hi
    have h1 := (find_new lex data aPath i hp).1
    rw [hall i hi] at h1
    have h2 : ((scanLoop (scanInit (split '/' (CleanPath aPath)) i) (lex data)).1.startFound
        && (scanLoop (scanInit (split '/' (CleanPath aPath)) i) (lex data)).1.endFound)
        = true := h1.symm
    simp only [Bool.and_eq_true] at h2
    exact h2.1
  obtain ⟨_, _, _, m, hm, hreader⟩ :=
    sequential_invariant lex data aPath (prolog ++ root :: epilog) hT hp k hk32 hsf
  have hanti := rest_antitone (lex data) (prolog ++ root :: epilog) (CleanPath aPath) hT k m hm hsf
  have hfirst := scanLoop_length_lt (lex data) (scanInit (split '/' (CleanPath aPath)) 0) rfl
    (hsf 0 (Nat.zero_le _))
  have hlek := scanLoop_length_le (lex data) (scanInit (split '/' (CleanPath aPath)) k)
  have hlem := scanLoop_length_le (lex data) (scanInit (split '/' (CleanPath aPath)) m)
  have hr0 := (find_new_reader lex data aPath 0 hp).1
  have hrk := (find_new_reader lex data aPath k hp).1
  obtain ⟨j, rfl⟩ : ∃ j, k = j + 1 := ⟨k - 1, by omega⟩
  have hge := coldReads_ge_first lex data aPath j
  simp only [sequentialReads, coldReads, hreader, hrk]
  rw [hr0] at hge
  simp only at hge
  omega

/-- Witness for C19 (amended): the indices `0, 1` of `r/t` on `<r><t></t><t></t></r>`. -/
theorem sequential_reads_fewer_witness :
    sampleLex bufSiblings = documentTokens [Node.other 0 0] rootSiblings [Node.other 21 21] ∧
    sequentialReads sampleLex bufSiblings "r/t".toList 1 <
      coldReads sampleLex bufSiblings "r/t".toList 1 :=
  ⟨by decide,
    sequential_reads_fewer sampleLex bufSiblings "r/t".toList [Node.other 0 0] rootSiblings
      [Node.other 21 21] 1 (by decide) (by decide) (by decide)
      (fun i hi => by
        have hi2 : i = 0 ∨ i = 1 := by omega
        rcases hi2 with rfl | rfl <;> decide)⟩

mutual
theorem resolve_node : ∀ (n : Node) (tags : List QString) (c : Nat) (lo g so eo : Int)
    (rest : List Token),
    (∀ a b, n.resolve tags c lo = Outcome.found a b →
      ∃ fin rem, scanLoop ⟨g, g, c, tags, false, false, so, eo, lo⟩ (n.tokens ++ rest)
          = (fin, rem) ∧
        fin.startFound = true ∧ fin.endFound = true ∧ fin.startOffset = a ∧
        fin.endOffset = b) ∧
    (∀ c2 lo2, n.resolve tags c lo = Outcome.next c2 lo2 →
      scanLoop ⟨g, g, c, tags, false, false, so, eo, lo⟩ (n.tokens ++ rest) =
        scanLoop ⟨g, g, c2, tags, false, false, so, eo, lo2⟩ rest)
  | Node.other o p, tags, c, lo, g, so, eo, rest => by
    refine ⟨?_, ?_⟩
    · intro a b h
      simp [Node.resolve] at h
    · intro c2 lo2 h
      simp only [Node.resolve, Outcome.next.injEq] at h
      obtain ⟨rfl, rfl⟩ := h
      simp only [Node.tokens, List.singleton_append]
      rw [scanLoop_cons _ _ _ rfl, step_other]
  | Node.element name oo op kids co cp, [], c, lo, g, so, eo, rest => by
    refine ⟨?_, ?_⟩ <;> intros <;> simp_all [Node.resolve]
  | Node.element name oo op kids co cp, [leaf], c, lo, g, so, eo, rest => by
    have hskip : ∀ (c1 c3 : Nat) (h1 : scanStep ⟨g, g, c1, [leaf], false, false, so, eo, lo⟩
          { type := StartElement, name := name, characterOffset := oo, pos := op } =
          ⟨g, g + 1, c3, [leaf], false, false, so, eo, oo - 1⟩),
        scanLoop ⟨g, g, c1, [leaf], false, false, so, eo, lo⟩
          ((Node.element name oo op kids co cp).tokens ++ rest) =
        scanLoop ⟨g, g, c3, [leaf], false, false, so, eo, co - 1⟩ rest := by
      intro c1 c3 h1
      simp only [Node.tokens, List.cons_append, List.append_assoc, List.singleton_append,
        List.nil_append]
      rw [scanLoop_cons _ _ _ rfl, h1,
        skip_list kids g (g + 1) c3 [leaf] false so eo _ _ (Or.inl (by omega)),
        scanLoop_cons _ _ _ rfl, step_end_skip _ _ _ _ _ _ _ _ _ _ _ _ (Or.inl rfl),
        show g + 1 - 1 = g by omega]
    by_cases hn : name = leaf
    · subst hn
      cases c with
      | zero =>
        refine ⟨?_, ?_⟩
        · intro a b h
          simp only [Node.resolve, if_true, Outcome.found.injEq] at h
          obtain ⟨rfl, rfl⟩ := h
          exact ⟨_, _, scan_hit name g so eo lo oo op kids co cp rest, rfl, rfl, rfl, rfl⟩
        · intro c2 lo2 h
          simp [Node.resolve] at h
      | succ c1 =>
        refine ⟨?_, ?_⟩
        · intro a b h
          simp [Node.resolve] at h
        · intro c2 lo2 h
          simp only [Node.resolve, if_true, Nat.add_one_ne_zero, if_false,
            Nat.add_sub_cancel, Outcome.next.injEq] at h
          obtain ⟨rfl, rfl⟩ := h
          exact hskip (c1 + 1) c1 (step_start_count _ _ _ _ _ _ _ _ _)
    · refine ⟨?_, ?_⟩
      · intro a b h
        simp [Node.resolve, hn] at h
      · intro c2 lo2 h
        simp only [Node.resolve, hn, if_false, Outcome.next.injEq] at h
        obtain ⟨rfl, rfl⟩ := h
        exact hskip c c (step_start_skip _ _ _ _ _ _ _ _ _ _ _ _
          (Or.inr (Or.inl (by simpa using fun h => hn h.symm))))
  | Node.element name oo op kids co cp, s :: s2 :: more, c, lo, g, so, eo, rest => by
    by_cases hn : name = s
    · subst hn
      refine ⟨?_, ?_⟩
      · intro a b h
        simp only [Node.resolve, if_true] at h
        cases hk : Node.resolveList kids (s2 :: more) c (oo - 1) with
        | found a2 b2 =>
          rw [hk] at h
          simp only [Outcome.found.injEq] at h
          obtain ⟨rfl, rfl⟩ := h
          obtain ⟨fin, rem, h1, h2⟩ := (resolve_list kids (s2 :: more) c (oo - 1) (g + 1) so eo
            ({ type := EndElement, name := name, characterOffset := co, pos := cp } :: rest)).1
            a2 b2 hk
          refine ⟨fin, rem, ?_, h2⟩
          simp only [Node.tokens, List.cons_append, List.append_assoc, List.singleton_append,
            List.nil_append]
          rw [scanLoop_cons _ _ _ rfl, step_start_pop, h1]
        | next c3 lo3 => rw [hk] at h; simp at h
        | undecided => rw [hk] at h; simp at h
      · intro c2 lo2 h
        simp only [Node.resolve, if_true] at h
        cases hk : Node.resolveList kids (s2 :: more) c (oo - 1) <;> rw [hk] at h <;> simp at h
    · refine ⟨?_, ?_⟩
      · intro a b h
        simp [Node.resolve, hn] at h
      · intro c2 lo2 h
        simp only [Node.resolve, hn, if_false, Outcome.next.injEq] at h
        obtain ⟨rfl, rfl⟩ := h
        simp only [Node.tokens, List.cons_append, List.append_assoc, List.singleton_append,
          List.nil_append]
        rw [scanLoop_cons _ _ _ rfl, step_start_skip _ _ _ _ _ _ _ _ _ _ _ _
            (Or.inr (Or.inl (by simpa using fun h => hn h.symm))),
          skip_list kids g (g + 1) c (s :: s2 :: more) false so eo _ _ (Or.inl (by omega)),
          scanLoop_cons _ _ _ rfl, step_end_skip _ _ _ _ _ _ _ _ _ _ _ _ (Or.inl rfl),
          show g + 1 - 1 = g by omega]
theorem resolve_list : ∀ (ns : List Node) (tags : List QString) (c : Nat) (lo g so eo : Int)
    (rest : List Token),
    (∀ a b, Node.resolveList ns tags c lo = Outcome.found a b →
      ∃ fin rem, scanLoop ⟨g, g, c, tags, false, false, so, eo, lo⟩
          (Node.tokensOfList ns ++ rest) = (fin, rem) ∧
        fin.startFound = true ∧ fin.endFound = true ∧ fin.startOffset = a ∧
        fin.endOffset = b) ∧
    (∀ c2 lo2, Node.resolveList ns tags c lo = Outcome.next c2 lo2 →
      scanLoop ⟨g, g, c, tags, false, false, so, eo, lo⟩ (Node.tokensOfList ns ++ rest) =
        scanLoop ⟨g, g, c2, tags, false, false, so, eo, lo2⟩ rest)
  | [], tags, c, lo, g, so, eo, rest => by
    refine ⟨?_, ?_⟩
    · intro a b h
      simp [Node.resolveList] at h
    · intro c2 lo2 h
      simp only [Node.resolveList, Outcome.next.injEq] at h
      obtain ⟨rfl, rfl⟩ := h
      simp [Node.tokensOfList]
  | n :: ns, tags, c, lo, g, so, eo, rest => by
    have hn := resolve_node n tags c lo g so eo (Node.tokensOfList ns ++ rest)
    simp only [Node.tokensOfList, List.append_assoc]
    cases hr : Node.resolve n tags c lo with
    | found a2 b2 =>
      refine ⟨?_, ?_⟩
      · intro a b h
        simp only [Node.resolveList, hr, Outcome.found.injEq] at h
        obtain ⟨rfl, rfl⟩ := h
        exact hn.1 a2 b2 hr
      · intro c2 lo2 h
        simp [Node.resolveList, hr] at h
    | next c3 lo3 =>
      have hl := resolve_list ns tags c3 lo3 g so eo rest
      rw [hn.2 c3 lo3 hr]
      refine ⟨?_, ?_⟩
      · intro a b h
        simp only [Node.resolveList, hr] at h
        exact hl.1 a b h
      · intro c2 lo2 h
        simp only [Node.resolveList, hr] at h
        exact hl.2 c2 lo2 h
    | undecided =>
      refine ⟨?_, ?_⟩ <;> intros <;> simp_all [Node.resolveList]
end

/-- C15 (amended): on a well-formed document, for every path that is non-empty
after cleaning (so every path of two or more segments) and every sibling index:
when resolving the path by first occurrences (each non-leaf segment matched by the
first element of that name among the siblings, the leaf chosen by the index
among the children of the last such element) selects an element, `Builder::find`
on a new Builder succeeds and returns the range of that element, which lies
inside the first element matched for each non-leaf segment. -/
theorem find_in_first_occurrence (lex : QByteArray → List Token) (data : QByteArray)
    (aPath : QString) (idx : Nat) (prolog : List Node) (root : Node) (epilog : List Node)
    (a b : Int) (hp : CleanPath aPath ≠ [])
    (hlex : lex data = documentTokens prolog root epilog)
    (hres : Node.resolveList (prolog ++ root :: epilog) (split '/' (CleanPath aPath)) idx 0
      = Outcome.found a b) :
    (Builder.find lex (Builder.new data) aPath idx).ok = true ∧
    (Builder.find lex (Builder.new data) aPath idx).range = some (a, b) := by
  obtain ⟨hok, hrange, _⟩ := find_new lex data aPath idx hp
  obtain ⟨fin, rem, h1, h2, h3, h4, h5⟩ :=
    (resolve_list (prolog ++ root :: epilog) (split '/' (CleanPath aPath)) idx 0 0 0 0 []).1
      a b hres
  have hscan : scanLoop (scanInit (split '/' (CleanPath aPath)) idx) (lex data) = (fin, rem) := by
    rw [hlex, documentTokens_eq]
    simpa [scanInit] using h1
  rw [hscan] at hok hrange
  simp only [h2, h3, h4, h5, Bool.and_self, if_true] at hok hrange
  exact ⟨hok, hrange⟩

/-- Witness for C15 (amended): the second `t` of the first `a` in
`<r><a><t></t><t></t></a><a><t></t><t></t></a></r>`. -/
theorem find_in_first_occurrence_witness :
    sampleLexNested bufNested =
      documentTokens [Node.other 0 0] rootNested [Node.other 49 49] ∧
    Node.resolveList ([Node.other 0 0] ++ rootNested :: [Node.other 49 49])
      (split '/' (CleanPath "/r/a/t".toList)) 1 0 = Outcome.found 12 20 ∧
    (Builder.find sampleLexNested (Builder.new bufNested) "/r/a/t".toList 1).range
      = some (12, 20) :=
  ⟨by decide, by decide,
    (find_in_first_occurrence sampleLexNested bufNested "/r/a/t".toList 1 [Node.other 0 0]
      rootNested [Node.other 49 49] 12 20 (by decide) (by decide) (by decide)).2⟩

end DomFactory
